import Mathlib

/-!
MBLEM English lemmatizer: the per-token body of `main`.

Shallow embedding of `src/mblem/mblem_english_bmt.c`.  The program is one long
`main`; each definition below embeds one block of it and names the source lines.

Conventions of the embedding.

* A C string is the list of its characters before the terminating NUL
  (`CStr`).  `strlen` is `List.length`, `strcmp(a,b)==0` is `a = b`.
* `s[i]` for `i ≤ strlen(s)` is `charAt s i` (the terminator at `i = strlen(s)`).
* A loop that scans a string for a character the string may lack runs past the
  terminator in C; what it reads there is not determined by the string, so the
  embedding of such a loop returns `none` at that point.
* The four parallel arrays `lookuplemma`, `lookuptag`, `onlytag`, `celex_suffix`
  are one array of records (`Lookup`), indexed by slot; a block that writes only
  some of the four leaves the others of that slot as they were.
* The fixed buffer capacities (`MAXREADLINE`, `MAXLOOKUP`, ...) are taken as not
  exceeded.
-/

namespace MBLEM

/-- A C string: its characters before the terminating NUL. -/
abbrev CStr := List Char

/-- The string terminator. -/
def NUL : Char := Char.ofNat 0

/-- The read `s[i]`, for `i ≤ strlen(s)`: a character of the string or its terminator. -/
def charAt (s : CStr) (i : Nat) : Char := s.getD i NUL

/-- The test `strncmp(s, p, n) == 0` on NUL-free strings: the first `n` characters agree. -/
def strncmp0 (s p : CStr) (n : Nat) : Bool := s.take n == p.take n

/-- One record of the translation table, as read at lines 154-156:
`wsjclasses[k]`, `classcodes[k]`, `bncclasses[k]`. -/
structure ClassRow where
  wsjclass : CStr
  classcode : CStr
  bncclass : CStr
deriving DecidableEq

/-- One record of the lexicon, as read at lines 125-146: `lexwf[i]`, `lexlem[i]`, `lexpos[i]`. -/
structure LexEntry where
  lexwf : CStr
  lexlem : CStr
  lexpos : CStr
deriving DecidableEq

/-- Slot `l` of the four parallel arrays `lookuplemma`, `lookuptag`, `onlytag`, `celex_suffix`. -/
structure Lookup where
  lookuplemma : CStr
  lookuptag : CStr
  onlytag : CStr
  celex_suffix : CStr
deriving DecidableEq, Inhabited

/-! ## Candidate selection (lines 432-469) -/

/-- Lines 448-454: the five verb-tense tests, each of which clears `in` when the declared
tag is the named one and `celex_suffix[l]` does not start with the required characters. -/
def tenseFilter (tag celex : CStr) (in0 : Bool) : Bool :=
  let in1 := if in0 && tag == "VBD".toList && !strncmp0 celex "a".toList 1 then false else in0
  let in2 := if in1 && tag == "VBG".toList && !strncmp0 celex "pe".toList 2 then false else in1
  let in3 := if in2 && tag == "VBN".toList && !strncmp0 celex "pa".toList 2 then false else in2
  let in4 := if in3 && tag == "VBZ".toList && !strncmp0 celex "e3S".toList 3 then false else in3
  if in4 && tag == "VBP".toList && !strncmp0 celex "e1S".toList 3
      && !strncmp0 celex "e2S".toList 3 && !strncmp0 celex "eP".toList 2 then false else in4

/-- Lines 436-456: the loop `while ((k<CLASSES)&&(!in))` over the rows of the table for
candidate `l`; the state is `in` and `m` (the first class-matching slot, `-1` while unset). -/
def classLoop (tag : CStr) (c : Lookup) (l : Nat) : List ClassRow → Bool → Int → Bool × Int
  | [], in0, m => (in0, m)
  | row :: rows, in0, m =>
    if in0 then (in0, m)
    else
      let hit := c.onlytag == row.classcode && tag == row.wsjclass
      let m1 := if hit && decide (m < 0) then (l : Int) else m
      let in1 := if hit then true else in0
      classLoop tag c l rows (tenseFilter tag c.celex_suffix in1) m1

/-- Lines 435-458: the loop `while ((!in)&&(l<nrlookup))` over the slots `l, l+1, ...`
(the list holds the slots still to visit); returns `(in, l, m)`. -/
def candLoop (tag : CStr) (table : List ClassRow) : List Lookup → Nat → Int → Bool × Nat × Int
  | [], l, m => (false, l, m)
  | c :: cs, l, m =>
    let r := classLoop tag c l table false m
    if r.1 then (true, l, r.2) else candLoop tag table cs (l + 1) r.2

/-- Lines 432-461: the selector.  Returns `(in, l)` after the fallback `l=m; in=1`. -/
def select (tag : CStr) (table : List ClassRow) (cands : List Lookup) : Bool × Nat :=
  let r := candLoop tag table cands 0 (-1)
  if !r.1 && decide (r.2.2 ≥ 0) then (true, r.2.2.toNat) else (r.1, r.2.1)

/-- Lines 463-469: the lemma field that is printed: `lookuplemma[l]` when `in`, else `word`. -/
def selectedLemma (tag : CStr) (table : List ClassRow) (cands : List Lookup) (word : CStr) : CStr :=
  let r := select tag table cands
  if r.1 then (cands.getD r.2 default).lookuplemma else word

/-! ## Case normalisation (lines 208-231) -/

/-- The ten punctuation literals compared with `strcmp` at lines 209-218 and 285-294. -/
def isPunct (word : CStr) : Bool :=
  word == "?".toList || word == ".".toList || word == ":".toList || word == ",".toList ||
  word == "(".toList || word == ")".toList || word == "``".toList || word == "''".toList ||
  word == "BREAK".toList || word == "!".toList

/-- The test `(c>='A')&&(c<='Z')`. -/
def isUpper (c : Char) : Bool := decide (65 ≤ c.toNat) && decide (c.toNat ≤ 90)

/-- The update `c+=32`. -/
def plus32 (c : Char) : Char := Char.ofNat (c.toNat + 32)

/-- The test `strstr(hay, needle)`: `needle` occurs in `hay`. -/
def strstr (hay needle : CStr) : Bool := decide (needle <:+: hay)

/-- Lines 227-230: `word[0]+=32;` then every later character in `A..Z` gets `+=32`. -/
def lowerWord : CStr → CStr
  | [] => []
  | c :: cs => plus32 c :: cs.map (fun x => if isUpper x then plus32 x else x)

/-- Lines 208-218: `let` after the test on the word as read. -/
def letAfterPunct (sentence : Nat) (let0 : Bool) (word : CStr) : Bool :=
  if sentence == 0 && isPunct word then true else let0

/-- Lines 220-225: the condition under which the word is lowercased. -/
def normCond (sentence : Nat) (let1 : Bool) (word tag : CStr) : Bool :=
  (sentence == 0 || (sentence == 1 && let1)) && isUpper (charAt word 0) &&
  !strstr tag "NNP".toList && !strstr word "BREAK".toList

/-! ## Instance for the classifier (lines 241-253) -/

/-- The constant `HISTORY`. -/
def HISTORY : Nat := 20

/-- Lines 244-251: slot `i` of the window, `j=((strlen(word)-HISTORY)+i)`. -/
def instanceSlot (word : CStr) (i : Nat) : CStr :=
  let j : Int := ((word.length : Int) - (HISTORY : Int)) + (i : Int)
  if j < 0 then "= ".toList else [charAt word j.toNat, ' ']

/-- Lines 242-253: the request line built in `instance`. -/
def instanceFor (word : CStr) : CStr :=
  "c ".toList ++ ((List.range HISTORY).map (instanceSlot word)).flatten ++ " ?\n".toList

/-! ## Payload of the reply (lines 272-280) -/

/-- Lines 274-275: `while (buffer[j]!='{') j++; j++;` gives what follows the first opening
brace; a buffer without one is scanned past its terminator. -/
def afterOpen : CStr → Option CStr
  | [] => none
  | c :: cs => if c = '{' then some cs else afterOpen cs

/-- Lines 276-280: the characters copied into `change`, up to the first closing brace; without
one the copy runs past the terminator. -/
def upToClose : CStr → Option CStr
  | [] => none
  | c :: cs => if c = '}' then some [] else (upToClose cs).map (fun r => c :: r)

/-- Lines 272-280: `change`, the payload of the reply in `buffer`. -/
def changeOf (buffer : CStr) : Option CStr := (afterOpen buffer).bind upToClose

/-! ## Lexicon scan (lines 301-332) -/

/-- Line 304: `while ((i<nrlex)&&(word[0]!=lexwf[i][0])) i++;` on the entries from `i` on. -/
def skipLoop (word : CStr) : List LexEntry → List LexEntry
  | [] => []
  | e :: es => if charAt word 0 ≠ charAt e.lexwf 0 then skipLoop word es else e :: es

/-- Lines 305-330: `while ((i<nrlex)&&(word[0]==lexwf[i][0]))`, collecting in order the
entries that pass `word[1]==lexwf[i][1]` and `strcmp(word,lexwf[i])==0`.  Words and word forms
are read with `%s` and so are not empty: index 1 is a character or the terminator. -/
def scanLoop (word : CStr) : List LexEntry → List LexEntry
  | [] => []
  | e :: es =>
    if charAt word 0 = charAt e.lexwf 0 then
      if charAt word 1 = charAt e.lexwf 1 ∧ word = e.lexwf then e :: scanLoop word es
      else scanLoop word es
    else []

/-- Lines 303-330: the entries found for `word`. -/
def lexScan (lex : List LexEntry) (word : CStr) : List LexEntry :=
  scanLoop word (skipLoop word lex)

/-- Lines 312-318 (and 403-408): `while (s[l]!='-') { copy s[l]; l++ }` returns the characters
before the first dash and what follows it.  A string without a dash is scanned past its
terminator. -/
def splitDash : CStr → Option (CStr × CStr)
  | [] => none
  | c :: cs => if c = '-' then some ([], cs) else (splitDash cs).map (fun r => (c :: r.1, r.2))

/-- Lines 308-327: the four fields written to slot `nrlookup` for a found entry:
the lemma, the tag code, `onlytag` (before the dash) and `celex_suffix` (from index `l+1` to
the end). -/
def lexLookup (e : LexEntry) : Option Lookup :=
  (splitDash e.lexpos).map (fun r => Lookup.mk e.lexlem e.lexpos r.1 r.2)

/-! ## Edit instructions (lines 334-416) -/

/-- The calls `strtok(change,"|")`, `strtok(NULL,"|")` until `NULL`: the maximal non-empty runs
of characters other than the bar, in order.  `cur` is the token being scanned. -/
def strtokGo : CStr → CStr → List CStr
  | [], cur => if cur = [] then [] else [cur]
  | c :: cs, cur =>
    if c = '|' then (if cur = [] then strtokGo cs [] else cur :: strtokGo cs [])
    else strtokGo cs (cur ++ [c])

/-- The parts of `change` that the loop of lines 340-415 visits. -/
def strtokParts (change : CStr) : List CStr := strtokGo change []

/-- The loop `while ((i<strlen(part))&&(part[i]!='+')) { copy part[i]; i++; }` on the characters
from `part[i]` on: the characters copied and the characters left (from the new `i`). -/
def segment : CStr → CStr × CStr
  | [] => ([], [])
  | c :: cs => if c = '+' then ([], c :: cs) else ((segment cs).1.cons c, (segment cs).2)

/-- Lines 354-361 and 362-369: `if (part[i]==op) { i++; copy a segment onto acc }`, on the
characters from `part[i]` on; returns the characters left and the new `acc`. -/
def opSegment (op : Char) (rest acc : CStr) : CStr × CStr :=
  match rest with
  | [] => (rest, acc)
  | c :: r => if c = op then ((segment r).2, acc ++ (segment r).1) else (rest, acc)

/-- Lines 352-370: `while (i<strlen(part)) { i++; if D ...; if I ...; }` on the characters from
`part[i]` on, with the `delete` and `insert` built so far.  Every turn consumes a character,
so `strlen(part)` turns are enough. -/
def opLoop : Nat → CStr → CStr → CStr → CStr × CStr
  | 0, _, del, ins => (del, ins)
  | fuel + 1, rest, del, ins =>
    match rest with
    | [] => (del, ins)
    | _ :: r1 =>
      let d := opSegment 'D' r1 del
      let i := opSegment 'I' d.1 ins
      opLoop fuel i.1 d.2 i.2

/-- Lines 342-370: `readtag`, `delete` and `insert` decoded from one part. -/
def parseSpec (part : CStr) : CStr × CStr × CStr :=
  let t := segment part
  let r := opLoop part.length t.2 [] []
  (t.1, r.1, r.2)

/-- Lines 381-389: `while (i >= 0 && j >= 0)`, comparing `word[i]` with `delete[j]`; returns
`l`.  Every turn lowers `i`, so `strlen(word)+1` turns are enough. -/
def stopLoop (word delete : CStr) : Nat → Int → Int → Int → Int
  | 0, _, _, l => l
  | fuel + 1, i, j, l =>
    if i ≥ 0 ∧ j ≥ 0 then
      if charAt word i.toNat = charAt delete j.toNat then
        stopLoop word delete fuel (i - 1) (j - 1) (l - 1)
      else stopLoop word delete fuel (-1) j l
    else l

/-- Lines 376-400: the lemma, the first `l` characters of `word` followed by `insert`. -/
def makeLemma (word delete insert : CStr) : CStr :=
  let l := stopLoop word delete (word.length + 1)
    ((word.length : Int) - 1) ((delete.length : Int) - 1) (word.length : Int)
  word.take l.toNat ++ insert

/-- Lines 342-409: the fields written to slot `nrlookup` for one part: `lookuptag`, `onlytag`
and `lookuplemma`; `celex_suffix` of the slot is not written. -/
def timblLookup (word : CStr) (old : Lookup) (part : CStr) : Option Lookup :=
  let r := parseSpec part
  let lemma_ := makeLemma word r.2.1 r.2.2
  (splitDash r.1).map (fun t => Lookup.mk lemma_ r.1 t.1 old.celex_suffix)

/-! ## One token (lines 201-476) -/

/-- What the loop carries from one token to the next: `sentence`, `let` and the four lookup
arrays (whose slots keep their contents until overwritten). -/
structure State where
  sentence : Nat
  let_ : Bool
  slots : Nat → Lookup

/-- What one non-marker token produces: the request sent to the server (line 258) and the three
fields of the output line (lines 421 and 464/467). -/
structure Emitted where
  request : CStr
  word : CStr
  tag : CStr
  lemma_ : CStr
deriving DecidableEq

/-- Writes `xs` to the slots `0, 1, ...`, leaving the other slots as they are. -/
def writeSlots (slots : Nat → Lookup) (xs : List Lookup) : Nat → Lookup :=
  fun l => (xs.get? l).getD (slots l)

/-- Lines 284-299: the punctuation block writes `lookuplemma[0]` and `lookuptag[0]`. -/
def punctSlots (slots : Nat → Lookup) (word : CStr) : Nat → Lookup :=
  writeSlots slots [Lookup.mk word "PUN".toList (slots 0).onlytag (slots 0).celex_suffix]

/-- Lines 308-327 for the found entries in turn: the slots `0, 1, ...` they fill. -/
def foundSlots : List LexEntry → Option (List Lookup)
  | [] => some []
  | e :: es =>
    match lexLookup e with
    | none => none
    | some c => (foundSlots es).map (fun cs => c :: cs)

/-- Lines 301-332: the lexicon block; `none` when a found entry has a tag code without dash. -/
def lexSlots (lex : List LexEntry) (word : CStr) : Option (List Lookup) :=
  foundSlots (lexScan lex word)

/-- The parts of lines 340-415 written to the slots `n, n+1, ...`; each keeps the
`celex_suffix` its slot held. -/
def timblSlots (word : CStr) (slots : Nat → Lookup) : Nat → List CStr → Option (List Lookup)
  | _, [] => some []
  | n, part :: parts =>
    match timblLookup word (slots n) part with
    | none => none
    | some c => (timblSlots word slots (n + 1) parts).map (fun cs => c :: cs)

/-- Lines 282-416: `nrlookup` and the arrays after the punctuation, lexicon and classifier
blocks. -/
def lookupBlocks (lex : List LexEntry) (slots : Nat → Lookup) (word change : CStr) :
    Option (Nat × (Nat → Lookup)) :=
  if isPunct word then some (1, punctSlots slots word)
  else
    match lexSlots lex word with
    | none => none
    | some [] =>
      (timblSlots word slots 0 (strtokParts change)).map (fun cs => (cs.length, writeSlots slots cs))
    | some (c :: cs) => some ((c :: cs).length, writeSlots slots (c :: cs))

/-- Lines 208-231: `word` after the case normalisation, the form used from line 233 on. -/
def lookupWord (st : State) (memword tag : CStr) : CStr :=
  if normCond st.sentence (letAfterPunct st.sentence st.let_ memword) memword tag then
    lowerWord memword
  else memword

/-- Lines 206-470: the body of the loop for a token that is not a marker; `memword` is the
word as read, `buffer` the reply of the server to the request for this token. -/
def processToken (lex : List LexEntry) (table : List ClassRow) (st : State)
    (memword tag buffer : CStr) : Option (State × Emitted) :=
  let let1 := letAfterPunct st.sentence st.let_ memword
  let norm := normCond st.sentence let1 memword tag
  let let2 := if norm then false else let1
  let word := lookupWord st memword tag
  match changeOf buffer with
  | none => none
  | some change =>
    match lookupBlocks lex st.slots word change with
    | none => none
    | some (nrlookup, slots) =>
      let cands := (List.range nrlookup).map slots
      some (State.mk (st.sentence + 1) let2 slots,
            Emitted.mk (instanceFor word) memword tag (selectedLemma tag table cands word))

/-- One line of the output file. -/
inductive OutLine where
  | markerLine (word : CStr)
  | record (word tag lemma_ : CStr)
deriving DecidableEq

/-- One turn of the loop of lines 200-477 on a field `word`, the field after it and the reply
of the server; a marker (first character `<`) uses neither. -/
def loopBody (lex : List LexEntry) (table : List ClassRow) (st : State)
    (word tag buffer : CStr) : Option (State × OutLine) :=
  if charAt word 0 ≠ '<' then
    (processToken lex table st word tag buffer).map
      (fun r => (r.1, OutLine.record r.2.word r.2.tag r.2.lemma_))
  else some (State.mk 0 st.let_ st.slots, OutLine.markerLine word)

/-- Lines 200-477: the loop over the input, one turn per element of the list: the field read
into `word`, the field read into `tag` when the word is not a marker, and the reply of the
server to the request of that turn.  Returns the last state and the lines written. -/
def mainLoop (lex : List LexEntry) (table : List ClassRow) :
    State → List (CStr × CStr × CStr) → Option (State × List OutLine)
  | st, [] => some (st, [])
  | st, turn :: rest =>
    match loopBody lex table st turn.1 turn.2.1 turn.2.2 with
    | none => none
    | some r => (mainLoop lex table r.1 rest).map (fun q => (q.1, r.2 :: q.2))

/-- Lines 205 and 241-258: what one turn of the loop writes to the socket with `sock_puts`:
the instance of the word for a field that is not a marker, nothing for a marker.  The write
comes before the reply is read and before the punctuation and lexicon blocks. -/
def sockWrites (st : State) (word tag : CStr) : List CStr :=
  if charAt word 0 ≠ '<' then [instanceFor (lookupWord st word tag)] else []

/-- The slots `0 .. nrlookup-1` after the blocks of lines 282-416: the candidates that the
selector of lines 432-461 visits. -/
def candidatesOf (lex : List LexEntry) (slots : Nat → Lookup) (word change : CStr) :
    Option (List Lookup) :=
  (lookupBlocks lex slots word change).map (fun r => (List.range r.1).map r.2)

/-! ## Notions of the specification -/

/-- Class-code match (section 4.2): some row pairs `classCode` with the declared tag. -/
def classMatches (table : List ClassRow) (classCode tag : CStr) : Prop :=
  ∃ row ∈ table, row.classcode = classCode ∧ row.wsjclass = tag

instance (table : List ClassRow) (classCode tag : CStr) :
    Decidable (classMatches table classCode tag) := by
  unfold classMatches; infer_instance

/-- The verb-tense filter of the declared tag (table of section 4.7). -/
def passesFilter (tag suffixCode : CStr) : Prop :=
  (tag = "VBD".toList → "a".toList <+: suffixCode) ∧
  (tag = "VBG".toList → "pe".toList <+: suffixCode) ∧
  (tag = "VBN".toList → "pa".toList <+: suffixCode) ∧
  (tag = "VBZ".toList → "e3S".toList <+: suffixCode) ∧
  (tag = "VBP".toList →
    "e1S".toList <+: suffixCode ∨ "e2S".toList <+: suffixCode ∨ "eP".toList <+: suffixCode)

instance (tag suffixCode : CStr) : Decidable (passesFilter tag suffixCode) := by
  unfold passesFilter; infer_instance

/-- The class code of a tag code: the tag code up to its first dash (section 3). -/
def classCodeOf (tagCode : CStr) : CStr := tagCode.takeWhile (fun c => c != '-')

/-- The suffix code of a tag code: what follows its first dash, empty if none (section 3). -/
def suffixCodeOf (tagCode : CStr) : CStr := (tagCode.dropWhile (fun c => c != '-')).drop 1

/-- A lexicon entry class-matches the declared tag. -/
def entryMatches (tag : CStr) (table : List ClassRow) (e : LexEntry) : Prop :=
  classMatches table (classCodeOf e.lexpos) tag

instance (tag : CStr) (table : List ClassRow) (e : LexEntry) :
    Decidable (entryMatches tag table e) := by
  unfold entryMatches; infer_instance

/-- A lexicon entry class-matches the declared tag and passes the tag's verb-tense filter. -/
def entryAccepted (tag : CStr) (table : List ClassRow) (e : LexEntry) : Prop :=
  classMatches table (classCodeOf e.lexpos) tag ∧ passesFilter tag (suffixCodeOf e.lexpos)

instance (tag : CStr) (table : List ClassRow) (e : LexEntry) :
    Decidable (entryAccepted tag table e) := by
  unfold entryAccepted; infer_instance

/-- The entries of the first run of consecutive entries whose word form starts with the first
character of `word`: what the scan of lines 304-305 visits. -/
def firstRun (lex : List LexEntry) (word : CStr) : List LexEntry :=
  (lex.dropWhile (fun e => decide (charAt e.lexwf 0 ≠ charAt word 0))).takeWhile
    (fun e => decide (charAt e.lexwf 0 = charAt word 0))

/-- The word with every letter `A..Z` lowercased and every other character kept. -/
def lowerAll (w : CStr) : CStr := w.map (fun c => if isUpper c then plus32 c else c)

/-- The word with exactly its leading run of uppercase letters lowercased and every character
after that run kept (section 4.8, step 2). -/
def lowerLeadingRun (w : CStr) : CStr :=
  (w.takeWhile isUpper).map plus32 ++ w.dropWhile isUpper

/-- The payload made of the given specs joined by single bars (section 4.5). -/
def joinBar : List CStr → CStr
  | [] => []
  | [s] => s
  | s :: t :: ts => s ++ '|' :: joinBar (t :: ts)

/-- The candidate decoded from one spec and applied to the word: the computed lemma, the tag
code, and the class code (the tag code up to its first dash); the fourth field is the suffix
code its slot held before. -/
def specCandidate (word : CStr) (part oldSuffix : CStr) : Lookup :=
  Lookup.mk (makeLemma word (parseSpec part).2.1 (parseSpec part).2.2) (parseSpec part).1
    (classCodeOf (parseSpec part).1) oldSuffix

/-- The segments of a spec written out after its tag code: each segment is a plus sign, its
opcode and its characters. -/
def renderSegments : List (Char × CStr) → CStr
  | [] => []
  | s :: ss => '+' :: s.1 :: (s.2 ++ renderSegments ss)

/-- The characters of the segments that carry the opcode `op`, concatenated in spec order. -/
def segmentsOf (op : Char) : List (Char × CStr) → CStr
  | [] => []
  | s :: ss => if s.1 = op then s.2 ++ segmentsOf op ss else segmentsOf op ss

/-- The first character of a word form (the terminator for the empty string). -/
def firstChar (e : LexEntry) : Char := charAt e.lexwf 0

/-- All entries that share a first character are contiguous: between two entries with the same
first character every entry has that first character. -/
def firstContiguous (lex : List LexEntry) : Prop :=
  ∀ pre x mid y post, lex = pre ++ x :: (mid ++ y :: post) → firstChar x = firstChar y →
    ∀ z ∈ mid, firstChar z = firstChar x

/-- The test `strcmp(a, b) <= 0`: `a` comes before `b`, or equals it, in the lexicographic
order of the character codes. -/
def strcmpLe : CStr → CStr → Bool
  | [], _ => true
  | _ :: _, [] => false
  | a :: as, b :: bs => if a < b then true else if b < a then false else strcmpLe as bs

/-- The lexicon is sorted by word form: every entry's word form is at most that of every later
entry. -/
def sortedLexicon (lex : List LexEntry) : Prop :=
  lex.Pairwise (fun a b => strcmpLe a.lexwf b.lexwf = true)

/-- Two tables hold the same set of (source tag label, class code) pairs. -/
def samePairs (t1 t2 : List ClassRow) : Prop :=
  ∀ src code, (∃ row ∈ t1, row.wsjclass = src ∧ row.classcode = code) ↔
    (∃ row ∈ t2, row.wsjclass = src ∧ row.classcode = code)

/-! ## Auxiliary definitions and example data -/

/-- The slot written for a found lexicon entry whose tag code has a dash. -/
def entryLookup (e : LexEntry) : Lookup :=
  Lookup.mk e.lexlem e.lexpos (classCodeOf e.lexpos) (suffixCodeOf e.lexpos)

/-- Example lexicon: the two homograph entries of saw, saw (V-e1S) before see (V-a1S). -/
def sawLexicon : List LexEntry :=
  [LexEntry.mk "saw".toList "saw".toList "V-e1S".toList,
   LexEntry.mk "saw".toList "see".toList "V-a1S".toList]

/-- Example candidates: see (V, a1S) before saw (V, e1S). -/
def seeSawCands : List Lookup :=
  [Lookup.mk "see".toList "V-a1S".toList "V".toList "a1S".toList,
   Lookup.mk "saw".toList "V-e1S".toList "V".toList "e1S".toList]

/-- Example candidates, none with a suffix code starting with a: a noun, then two verbs. -/
def presentCands : List Lookup :=
  [Lookup.mk "sawn".toList "N-S".toList "N".toList "S".toList,
   Lookup.mk "saw".toList "V-e1S".toList "V".toList "e1S".toList,
   Lookup.mk "sawe".toList "V-e2S".toList "V".toList "e2S".toList]

/-- Example table: one row, pairing the tag VBD with the class code V. -/
def vbdTable : List ClassRow := [ClassRow.mk "VBD".toList "V".toList "VVD".toList]

/-- Example state: the start of a sentence, `let` clear, every slot holding empty strings. -/
def startState : State := State.mk 0 false (fun _ => default)

/-- A candidate is accepted: its class code matches the declared tag and its suffix code
passes the filter of the declared tag. -/
def accepts (tag : CStr) (table : List ClassRow) (c : Lookup) : Prop :=
  classMatches table c.onlytag tag ∧ passesFilter tag c.celex_suffix

instance (tag : CStr) (table : List ClassRow) (c : Lookup) : Decidable (accepts tag table c) := by
  unfold accepts; infer_instance

/-- Number of leading positions at which two strings agree before the first difference or
the end of either; on the reversed strings it counts the agreeing trailing characters. -/
def commonLen : CStr → CStr → Nat
  | a :: as, b :: bs => if a = b then commonLen as bs + 1 else 0
  | _, _ => 0

/-! ## Proofs -/

theorem strncmp0_eq (s p : CStr) (n : Nat) (hn : n = p.length) :
    strncmp0 s p n = decide (p <+: s) := by
  subst hn
  unfold strncmp0
  rw [List.take_length]
  by_cases h : p <+: s
  · have e := List.prefix_iff_eq_take.mp h
    simp [h, ← e]
  · have e : ¬ (List.take p.length s = p) := fun e => h (List.prefix_iff_eq_take.mpr e.symm)
    simp [h, e]

theorem tenseFilter_false (tag celex : CStr) : tenseFilter tag celex false = false := by
  simp [tenseFilter]

theorem tenseFilter_true (tag celex : CStr) :
    tenseFilter tag celex true = decide (passesFilter tag celex) := by
  have ha := strncmp0_eq celex "a".toList 1 rfl
  have hpe := strncmp0_eq celex "pe".toList 2 rfl
  have hpa := strncmp0_eq celex "pa".toList 2 rfl
  have h3 := strncmp0_eq celex "e3S".toList 3 rfl
  have h1 := strncmp0_eq celex "e1S".toList 3 rfl
  have h2 := strncmp0_eq celex "e2S".toList 3 rfl
  have hp := strncmp0_eq celex "eP".toList 2 rfl
  unfold tenseFilter passesFilter
  rw [ha, hpe, hpa, h3, h1, h2, hp]
  by_cases t1 : tag = "VBD".toList
  · subst t1
    by_cases c : "a".toList <+: celex <;> simp [c]
  by_cases t2 : tag = "VBG".toList
  · subst t2
    by_cases c : "pe".toList <+: celex <;> simp [c]
  by_cases t3 : tag = "VBN".toList
  · subst t3
    by_cases c : "pa".toList <+: celex <;> simp [c]
  by_cases t4 : tag = "VBZ".toList
  · subst t4
    by_cases c : "e3S".toList <+: celex <;> simp [c]
  by_cases t5 : tag = "VBP".toList
  · subst t5
    by_cases c1 : "e1S".toList <+: celex <;> by_cases c2 : "e2S".toList <+: celex <;>
      by_cases c3 : "eP".toList <+: celex <;> simp [c1, c2, c3, Bool.or_assoc]
  have u1 : ¬ tag = ['V', 'B', 'D'] := t1
  have u2 : ¬ tag = ['V', 'B', 'G'] := t2
  have u3 : ¬ tag = ['V', 'B', 'N'] := t3
  have u4 : ¬ tag = ['V', 'B', 'Z'] := t4
  have u5 : ¬ tag = ['V', 'B', 'P'] := t5
  simp [u1, u2, u3, u4, u5]

theorem classLoop_true (tag : CStr) (c : Lookup) (l : Nat) (rows : List ClassRow) (m : Int) :
    classLoop tag c l rows true m = (true, m) := by
  cases rows <;> simp [classLoop]

theorem classMatches_nil (code tag : CStr) : ¬ classMatches [] code tag := by
  simp [classMatches]

theorem classMatches_cons (row : ClassRow) (rows : List ClassRow) (code tag : CStr) :
    classMatches (row :: rows) code tag ↔
      (row.classcode = code ∧ row.wsjclass = tag) ∨ classMatches rows code tag := by
  simp [classMatches]

theorem classLoop_false (tag : CStr) (c : Lookup) (l : Nat) (table : List ClassRow) (m : Int) :
    classLoop tag c l table false m =
      (decide (classMatches table c.onlytag tag ∧ passesFilter tag c.celex_suffix),
       if classMatches table c.onlytag tag ∧ m < 0 then (l : Int) else m) := by
  induction table generalizing m with
  | nil => simp [classLoop, classMatches_nil]
  | cons row rows ih =>
    rw [classLoop]
    simp only [Bool.false_eq_true, if_false]
    by_cases hit : row.classcode = c.onlytag ∧ row.wsjclass = tag
    · have hb : (c.onlytag == row.classcode && tag == row.wsjclass) = true := by
        simp [hit.1, hit.2]
      have hm : classMatches (row :: rows) c.onlytag tag := (classMatches_cons _ _ _ _).mpr (Or.inl hit)
      simp only [hb, if_true, Bool.true_and, tenseFilter_true]
      by_cases hp : passesFilter tag c.celex_suffix
      · simp only [hp, decide_True, classLoop_true, hm, and_true, true_and]
        by_cases hneg : m < 0 <;> simp [hneg]
      · simp only [hp, decide_False, ih, and_false]
        by_cases hneg : m < 0
        · have : ¬ ((l : Int) < 0) := by omega
          simp [hneg, hm, this]
        · simp [hneg]
    · have hb : (c.onlytag == row.classcode && tag == row.wsjclass) = false := by
        rw [Bool.eq_false_iff]
        intro h
        simp only [Bool.and_eq_true, beq_iff_eq] at h
        exact hit ⟨h.1.symm, h.2.symm⟩
      have hm : classMatches (row :: rows) c.onlytag tag ↔ classMatches rows c.onlytag tag := by
        rw [classMatches_cons]; simp [hit]
      simp only [hb, Bool.false_and, Bool.false_eq_true, if_false, tenseFilter_false, ih, hm]

theorem candLoop_cons (tag : CStr) (table : List ClassRow) (x : Lookup) (xs : List Lookup)
    (l : Nat) (m : Int) :
    candLoop tag table (x :: xs) l m =
      if accepts tag table x then
        (true, l, if classMatches table x.onlytag tag ∧ m < 0 then (l : Int) else m)
      else candLoop tag table xs (l + 1)
        (if classMatches table x.onlytag tag ∧ m < 0 then (l : Int) else m) := by
  unfold accepts
  rw [candLoop]
  simp only [classLoop_false]
  by_cases h : classMatches table x.onlytag tag ∧ passesFilter tag x.celex_suffix
  · simp [h]
  · simp [h]

theorem candLoop_accept (tag : CStr) (table : List ClassRow) (pre : List Lookup) (c : Lookup)
    (post : List Lookup) (l : Nat) (m : Int)
    (hpre : ∀ x ∈ pre, ¬ accepts tag table x) (hc : accepts tag table c) :
    (candLoop tag table (pre ++ c :: post) l m).1 = true ∧
      (candLoop tag table (pre ++ c :: post) l m).2.1 = l + pre.length := by
  induction pre generalizing l m with
  | nil => simp [candLoop_cons, hc]
  | cons x xs ih =>
    have hx : ¬ accepts tag table x := hpre x (List.mem_cons_self _ _)
    have hxs : ∀ y ∈ xs, ¬ accepts tag table y := fun y hy => hpre y (List.mem_cons_of_mem _ hy)
    rw [List.cons_append, candLoop_cons, if_neg hx]
    have := ih (l + 1) (if classMatches table x.onlytag tag ∧ m < 0 then (l : Int) else m) hxs
    refine ⟨this.1, ?_⟩
    rw [this.2, List.length_cons]; omega

theorem candLoop_reject (tag : CStr) (table : List ClassRow) (cands : List Lookup) (l : Nat)
    (m : Int) (h : ∀ x ∈ cands, ¬ accepts tag table x) :
    (candLoop tag table cands l m).1 = false := by
  induction cands generalizing l m with
  | nil => simp [candLoop]
  | cons x xs ih =>
    rw [candLoop_cons, if_neg (h x (List.mem_cons_self _ _))]
    exact ih _ _ (fun y hy => h y (List.mem_cons_of_mem _ hy))

theorem candLoop_reject_keep (tag : CStr) (table : List ClassRow) (cands : List Lookup) (l : Nat)
    (m : Int) (h : ∀ x ∈ cands, ¬ accepts tag table x) (hm : 0 ≤ m) :
    (candLoop tag table cands l m).2.2 = m := by
  induction cands generalizing l with
  | nil => simp [candLoop]
  | cons x xs ih =>
    have hneg : ¬ (m < 0) := by omega
    rw [candLoop_cons, if_neg (h x (List.mem_cons_self _ _))]
    simp only [hneg, and_false, if_false]
    exact ih _ (fun y hy => h y (List.mem_cons_of_mem _ hy))

theorem candLoop_reject_unset (tag : CStr) (table : List ClassRow) (cands : List Lookup) (l : Nat)
    (m : Int) (h : ∀ x ∈ cands, ¬ classMatches table x.onlytag tag) :
    (candLoop tag table cands l m).2.2 = m := by
  induction cands generalizing l with
  | nil => simp [candLoop]
  | cons x xs ih =>
    have hx : ¬ classMatches table x.onlytag tag := h x (List.mem_cons_self _ _)
    have ha : ¬ accepts tag table x := fun a => hx a.1
    rw [candLoop_cons, if_neg ha]
    simp only [hx, false_and, if_false]
    exact ih _ (fun y hy => h y (List.mem_cons_of_mem _ hy))

theorem candLoop_reject_first (tag : CStr) (table : List ClassRow) (pre : List Lookup)
    (c : Lookup) (post : List Lookup) (l : Nat) (m : Int)
    (h : ∀ x ∈ pre ++ c :: post, ¬ accepts tag table x) (hm : m < 0)
    (hpre : ∀ x ∈ pre, ¬ classMatches table x.onlytag tag)
    (hc : classMatches table c.onlytag tag) :
    (candLoop tag table (pre ++ c :: post) l m).2.2 = ((l + pre.length : Nat) : Int) := by
  induction pre generalizing l with
  | nil =>
    rw [List.nil_append, candLoop_cons, if_neg (h c (by simp))]
    simp only [hc, hm, and_self, if_true, List.length_nil, Nat.add_zero]
    exact candLoop_reject_keep tag table post (l + 1) l
      (fun y hy => h y (by simp [hy])) (by omega)
  | cons x xs ih =>
    have hx : ¬ classMatches table x.onlytag tag := hpre x (List.mem_cons_self _ _)
    have ha : ¬ accepts tag table x := fun a => hx a.1
    rw [List.cons_append, candLoop_cons, if_neg ha]
    simp only [hx, false_and, if_false]
    rw [ih (l + 1) (fun y hy => h y (by simp at hy ⊢; tauto))
      (fun y hy => hpre y (List.mem_cons_of_mem _ hy)), List.length_cons]
    congr 1; omega

theorem exists_first_split {α : Type} (P : α → Prop) (xs : List α) (h : ∃ x ∈ xs, P x) :
    ∃ pre c post, xs = pre ++ c :: post ∧ (∀ x ∈ pre, ¬ P x) ∧ P c := by
  induction xs with
  | nil => simp at h
  | cons a as ih =>
    by_cases ha : P a
    · exact ⟨[], a, as, rfl, by simp, ha⟩
    · obtain ⟨x, hx, hp⟩ := h
      have hx2 : x ∈ as := by
        rcases List.mem_cons.mp hx with e | e
        · exact absurd (e ▸ hp) ha
        · exact e
      obtain ⟨pre, c, post, e, hpre, hc⟩ := ih ⟨x, hx2, hp⟩
      refine ⟨a :: pre, c, post, by rw [e, List.cons_append], ?_, hc⟩
      intro y hy
      rcases List.mem_cons.mp hy with e2 | e2
      · exact e2 ▸ ha
      · exact hpre y e2

theorem getD_split (pre : List Lookup) (c : Lookup) (post : List Lookup) :
    (pre ++ c :: post).getD pre.length default = c := by
  induction pre with
  | nil => rfl
  | cons a as ih => simpa using ih

theorem select_accept (tag : CStr) (table : List ClassRow) (pre : List Lookup) (c : Lookup)
    (post : List Lookup) (hpre : ∀ x ∈ pre, ¬ accepts tag table x) (hc : accepts tag table c) :
    select tag table (pre ++ c :: post) = (true, pre.length) := by
  have h := candLoop_accept tag table pre c post 0 (-1) hpre hc
  unfold select
  simp only [h.1, h.2, Bool.not_true, Bool.false_and, Bool.false_eq_true, if_false, Nat.zero_add]

theorem select_fallback_index (tag : CStr) (table : List ClassRow) (pre : List Lookup)
    (c : Lookup) (post : List Lookup)
    (h : ∀ x ∈ pre ++ c :: post, ¬ accepts tag table x)
    (hpre : ∀ x ∈ pre, ¬ classMatches table x.onlytag tag)
    (hc : classMatches table c.onlytag tag) :
    select tag table (pre ++ c :: post) = (true, pre.length) := by
  have h1 := candLoop_reject tag table (pre ++ c :: post) 0 (-1) h
  have h2 := candLoop_reject_first tag table pre c post 0 (-1) h (by omega) hpre hc
  unfold select
  simp only [h1, h2, Nat.zero_add, Bool.not_false, Bool.true_and]
  simp

theorem select_none (tag : CStr) (table : List ClassRow) (cands : List Lookup)
    (h : ∀ x ∈ cands, ¬ classMatches table x.onlytag tag) :
    (select tag table cands).1 = false := by
  have h1 := candLoop_reject tag table cands 0 (-1) (fun x hx a => h x hx a.1)
  have h2 := candLoop_reject_unset tag table cands 0 (-1) h
  unfold select
  simp [h1, h2]

/-- C1. CandidateSelector: whenever some candidate both class-matches the declared tag (a table
row pairs its class code with the tag) and passes the filter of the declared tag, the selector
reports a match and the selected lemma is the lemma of the first such candidate in list
order. -/
theorem select_first_accepted (tag : CStr) (table : List ClassRow) (cands : List Lookup)
    (word : CStr) (h : ∃ c ∈ cands, accepts tag table c) :
    ∃ pre c post, cands = pre ++ c :: post ∧ (∀ x ∈ pre, ¬ accepts tag table x) ∧
      accepts tag table c ∧ (select tag table cands).1 = true ∧
      selectedLemma tag table cands word = c.lookuplemma := by
  obtain ⟨pre, c, post, e, hpre, hc⟩ := exists_first_split (accepts tag table) cands h
  refine ⟨pre, c, post, e, hpre, hc, ?_, ?_⟩
  · rw [e, select_accept tag table pre c post hpre hc]
  · unfold selectedLemma
    rw [e, select_accept tag table pre c post hpre hc]
    simp only [if_true, getD_split]

/-- The witness of C1: declared tag VBD, a table pairing VBD with V, and the candidates
(V, a1S, see), (V, e1S, saw); the selected lemma is see. -/
theorem select_first_accepted_witness :
    (∃ c ∈ seeSawCands, accepts "VBD".toList vbdTable c) ∧
    (∃ pre c post, seeSawCands = pre ++ c :: post ∧
      (∀ x ∈ pre, ¬ accepts "VBD".toList vbdTable x) ∧ accepts "VBD".toList vbdTable c ∧
      (select "VBD".toList vbdTable seeSawCands).1 = true ∧
      selectedLemma "VBD".toList vbdTable seeSawCands "saw".toList = c.lookuplemma) ∧
    selectedLemma "VBD".toList vbdTable seeSawCands "saw".toList = "see".toList :=
  ⟨by decide, select_first_accepted _ _ _ _ (by decide), by decide⟩

/-- C2. CandidateSelector fallback: when at least one candidate class-matches the declared tag
but no class-matching candidate passes the tag's verb-tense filter, a match is reported and the
selected lemma is the lemma of the first class-matching candidate in list order. -/
theorem select_fallback (tag : CStr) (table : List ClassRow) (cands : List Lookup) (word : CStr)
    (h1 : ∃ c ∈ cands, classMatches table c.onlytag tag)
    (h2 : ∀ c ∈ cands, classMatches table c.onlytag tag → ¬ passesFilter tag c.celex_suffix) :
    ∃ pre c post, cands = pre ++ c :: post ∧
      (∀ x ∈ pre, ¬ classMatches table x.onlytag tag) ∧ classMatches table c.onlytag tag ∧
      (select tag table cands).1 = true ∧
      selectedLemma tag table cands word = c.lookuplemma := by
  obtain ⟨pre, c, post, e, hpre, hc⟩ :=
    exists_first_split (fun x => classMatches table x.onlytag tag) cands h1
  have hrej : ∀ x ∈ pre ++ c :: post, ¬ accepts tag table x := by
    intro x hx a
    exact h2 x (e ▸ hx) a.1 a.2
  have hs := select_fallback_index tag table pre c post hrej hpre hc
  refine ⟨pre, c, post, e, hpre, hc, ?_, ?_⟩
  · rw [e, hs]
  · unfold selectedLemma
    rw [e, hs]
    simp only [if_true, getD_split]

/-- The witness of C2: declared tag VBD and the candidates sawn (N, S), saw (V, e1S),
sawe (V, e2S); two class-match, none passes the VBD filter, and saw, the first class-matching
one, is selected. -/
theorem select_fallback_witness :
    ((∃ c ∈ presentCands, classMatches vbdTable c.onlytag "VBD".toList) ∧
      (∀ c ∈ presentCands, classMatches vbdTable c.onlytag "VBD".toList →
        ¬ passesFilter "VBD".toList c.celex_suffix)) ∧
    (∃ pre c post, presentCands = pre ++ c :: post ∧
      (∀ x ∈ pre, ¬ classMatches vbdTable x.onlytag "VBD".toList) ∧
      classMatches vbdTable c.onlytag "VBD".toList ∧
      (select "VBD".toList vbdTable presentCands).1 = true ∧
      selectedLemma "VBD".toList vbdTable presentCands "x".toList = c.lookuplemma) ∧
    selectedLemma "VBD".toList vbdTable presentCands "x".toList = "saw".toList :=
  ⟨by decide, select_fallback _ _ _ _ (by decide) (by decide), by decide⟩

theorem stopLoop_neg (word delete : CStr) (fuel : Nat) (j l : Int) :
    stopLoop word delete fuel (-1) j l = l := by
  cases fuel <;> simp [stopLoop]

theorem charAt_reverse (s : CStr) (t : Nat) (h : t < s.reverse.length) :
    charAt s (s.length - 1 - t) = s.reverse[t] := by
  have h2 : t < s.length := by simpa using h
  unfold charAt
  rw [List.getElem_reverse, List.getD_eq_getElem?_getD, List.getElem?_eq_getElem (by omega)]
  rfl

theorem commonLen_nil_left (b : CStr) : commonLen [] b = 0 := by
  cases b <;> rfl

theorem commonLen_nil_right (a : CStr) : commonLen a [] = 0 := by
  cases a <;> rfl

theorem stopLoop_eq (word delete : CStr) (fuel t : Nat) (hw : t ≤ word.length)
    (hd : t ≤ delete.length) (hf : word.length - t + 1 ≤ fuel) :
    stopLoop word delete fuel ((word.length : Int) - 1 - t) ((delete.length : Int) - 1 - t)
        ((word.length : Int) - t) =
      (word.length : Int) - t - (commonLen (word.reverse.drop t) (delete.reverse.drop t) : Nat) := by
  induction fuel generalizing t with
  | zero => omega
  | succ fuel ih =>
    rw [stopLoop]
    by_cases hc : t < word.length ∧ t < delete.length
    · have hi : (word.length : Int) - 1 - t ≥ 0 ∧ (delete.length : Int) - 1 - t ≥ 0 := by omega
      have e1 : ((word.length : Int) - 1 - t).toNat = word.length - 1 - t := by omega
      have e2 : ((delete.length : Int) - 1 - t).toNat = delete.length - 1 - t := by omega
      have hwr : t < word.reverse.length := by simpa using hc.1
      have hdr : t < delete.reverse.length := by simpa using hc.2
      rw [if_pos hi, e1, e2, charAt_reverse word t hwr, charAt_reverse delete t hdr,
        List.drop_eq_getElem_cons hwr, List.drop_eq_getElem_cons hdr]
      by_cases heq : word.reverse[t] = delete.reverse[t]
      · rw [if_pos heq]
        have := ih (t + 1) (by omega) (by omega) (by omega)
        simp only [commonLen, heq, if_true]
        have a1 : (word.length : Int) - 1 - t - 1 = (word.length : Int) - 1 - ((t + 1 : Nat) : Int) := by
          omega
        have a2 : (delete.length : Int) - 1 - t - 1 = (delete.length : Int) - 1 - ((t + 1 : Nat) : Int) := by
          omega
        have a3 : (word.length : Int) - t - 1 = (word.length : Int) - ((t + 1 : Nat) : Int) := by
          omega
        rw [a1, a2, a3, this]
        push_cast
        omega
      · rw [if_neg heq, stopLoop_neg, commonLen, if_neg heq]
        simp
    · have hi : ¬ ((word.length : Int) - 1 - t ≥ 0 ∧ (delete.length : Int) - 1 - t ≥ 0) := by omega
      rw [if_neg hi]
      have : commonLen (word.reverse.drop t) (delete.reverse.drop t) = 0 := by
        by_cases h1 : t < word.length
        · have h2 : delete.reverse.drop t = [] := List.drop_of_length_le (by simp; omega)
          rw [h2, commonLen_nil_right]
        · have h2 : word.reverse.drop t = [] := List.drop_of_length_le (by simp; omega)
          rw [h2, commonLen_nil_left]
      rw [this]; simp

theorem makeLemma_eq_commonLen (word delete insert : CStr) :
    makeLemma word delete insert =
      word.take (word.length - commonLen word.reverse delete.reverse) ++ insert := by
  have h := stopLoop_eq word delete (word.length + 1) 0 (by omega) (by omega) (by omega)
  simp only [CharP.cast_eq_zero, sub_zero, List.drop_zero, Nat.cast_zero] at h
  unfold makeLemma
  simp only [h]
  congr 2
  omega

theorem commonLen_le_left (a b : CStr) : commonLen a b ≤ a.length := by
  induction a generalizing b with
  | nil => simp [commonLen_nil_left]
  | cons x xs ih =>
    cases b with
    | nil => simp [commonLen]
    | cons y ys =>
      by_cases h : x = y
      · simp only [commonLen, if_pos h, List.length_cons]
        exact Nat.succ_le_succ (ih ys)
      · simp [commonLen, h]

theorem commonLen_le_right (a b : CStr) : commonLen a b ≤ b.length := by
  induction a generalizing b with
  | nil => simp [commonLen_nil_left]
  | cons x xs ih =>
    cases b with
    | nil => simp [commonLen]
    | cons y ys =>
      by_cases h : x = y
      · simp only [commonLen, if_pos h, List.length_cons]
        exact Nat.succ_le_succ (ih ys)
      · simp [commonLen, h]

theorem commonLen_take (a b : CStr) :
    a.take (commonLen a b) = b.take (commonLen a b) := by
  induction a generalizing b with
  | nil => simp [commonLen_nil_left]
  | cons x xs ih =>
    cases b with
    | nil => simp [commonLen]
    | cons y ys =>
      by_cases h : x = y
      · rw [commonLen, if_pos h, List.take_succ_cons, List.take_succ_cons, ih ys, h]
      · simp [commonLen, h]

theorem commonLen_max (a b : CStr) (k : Nat) (h : a.take k = b.take k) (ha : k ≤ a.length)
    (hb : k ≤ b.length) : k ≤ commonLen a b := by
  induction a generalizing b k with
  | nil => simp at ha; omega
  | cons x xs ih =>
    cases b with
    | nil => simp at hb; omega
    | cons y ys =>
      cases k with
      | zero => omega
      | succ k =>
        simp only [List.take_succ_cons, List.cons.injEq] at h
        simp only [List.length_cons, Nat.add_le_add_iff_right] at ha hb
        simp only [commonLen, if_pos h.1]
        exact Nat.succ_le_succ (ih ys k h.2 ha hb)

theorem commonLen_append_self (a b : CStr) : commonLen (a ++ b) a = a.length := by
  induction a with
  | nil => simp [commonLen_nil_right]
  | cons x xs ih => simp [commonLen, ih]

theorem drop_eq_iff_reverse_take (w d : CStr) (k : Nat) (hw : k ≤ w.length) (hd : k ≤ d.length) :
    w.drop (w.length - k) = d.drop (d.length - k) ↔ w.reverse.take k = d.reverse.take k := by
  have e1 : (w.drop (w.length - k)).reverse = w.reverse.take k := by
    rw [List.reverse_drop]; congr 1; omega
  have e2 : (d.drop (d.length - k)).reverse = d.reverse.take k := by
    rw [List.reverse_drop]; congr 1; omega
  rw [← e1, ← e2, List.reverse_inj]

/-- C4. EditApplier: the computed lemma is the first |w| - k characters of the word followed by
the insert string, where k is the length of the longest common suffix of the word and the
delete string: the last k characters of both agree, and no longer common suffix exists. -/
theorem makeLemma_longest_common_suffix (w d ins : CStr) :
    ∃ k, k ≤ w.length ∧ k ≤ d.length ∧
      w.drop (w.length - k) = d.drop (d.length - k) ∧
      (∀ k2, k2 ≤ w.length → k2 ≤ d.length →
        w.drop (w.length - k2) = d.drop (d.length - k2) → k2 ≤ k) ∧
      makeLemma w d ins = w.take (w.length - k) ++ ins := by
  have hl : commonLen w.reverse d.reverse ≤ w.length := by
    simpa using commonLen_le_left w.reverse d.reverse
  have hr : commonLen w.reverse d.reverse ≤ d.length := by
    simpa using commonLen_le_right w.reverse d.reverse
  refine ⟨commonLen w.reverse d.reverse, hl, hr, ?_, ?_, makeLemma_eq_commonLen w d ins⟩
  · rw [drop_eq_iff_reverse_take w d _ hl hr]
    exact commonLen_take _ _
  · intro k2 h1 h2 h3
    rw [drop_eq_iff_reverse_take w d _ h1 h2] at h3
    exact commonLen_max _ _ k2 h3 (by simpa using h1) (by simpa using h2)

/-- C5. EditApplier strips a full suffix: applying delete d and insert ins to the word s ++ d
yields s ++ ins. -/
theorem makeLemma_strips_full_suffix (s d ins : CStr) :
    makeLemma (s ++ d) d ins = s ++ ins := by
  rw [makeLemma_eq_commonLen, List.reverse_append, commonLen_append_self]
  simp

/-- The example of section 8: walked with delete ed and empty insert gives walk. -/
theorem makeLemma_walked : makeLemma "walked".toList "ed".toList [] = "walk".toList := by
  decide

/-- C6. EditApplier in the worst case only appends: when the word and the delete string share
no final character (one of them is empty or their last characters differ), the result is the
word followed by the insert string, nothing stripped. -/
theorem makeLemma_only_appends (w d ins : CStr)
    (h : w = [] ∨ d = [] ∨ w.getLast? ≠ d.getLast?) :
    makeLemma w d ins = w ++ ins := by
  have hz : commonLen w.reverse d.reverse = 0 := by
    rcases h with h | h | h
    · subst h; simp [commonLen_nil_left]
    · subst h; simp [commonLen_nil_right]
    · rw [← List.head?_reverse, ← List.head?_reverse] at h
      cases hw : w.reverse with
      | nil => exact commonLen_nil_left _
      | cons x xs =>
        cases hd : d.reverse with
        | nil => rfl
        | cons y ys =>
          rw [hw, hd] at h
          have hxy : x ≠ y := fun e => h (by simp [e])
          simp [commonLen, hxy]
  rw [makeLemma_eq_commonLen, hz]
  simp

/-- The witness of C6: word foo, delete xyz, insert s yields foos. -/
theorem makeLemma_only_appends_witness :
    ("foo".toList = [] ∨ "xyz".toList = [] ∨ "foo".toList.getLast? ≠ "xyz".toList.getLast?) ∧
      makeLemma "foo".toList "xyz".toList "s".toList = "foo".toList ++ "s".toList ∧
      "foo".toList ++ "s".toList = "foos".toList :=
  ⟨by decide, makeLemma_only_appends _ _ _ (by decide), by decide⟩

theorem segment_append (s r : CStr) (hs : '+' ∉ s) :
    segment (s ++ r) = (s ++ (segment r).1, (segment r).2) := by
  induction s with
  | nil => simp
  | cons c cs ih =>
    have hc : c ≠ '+' := fun e => hs (by simp [e])
    have hcs : '+' ∉ cs := fun m => hs (List.mem_cons_of_mem _ m)
    simp [segment, hc, ih hcs]

theorem segment_plus (r : CStr) : segment ('+' :: r) = ([], '+' :: r) := by
  simp [segment]

theorem segment_clean (s : CStr) (hs : '+' ∉ s) : segment s = (s, []) := by
  have := segment_append s [] hs
  simpa [segment] using this

theorem segment_then_plus (s r : CStr) (hs : '+' ∉ s) :
    segment (s ++ '+' :: r) = (s, '+' :: r) := by
  rw [segment_append s _ hs, segment_plus]
  simp

theorem opLoop_nil (fuel : Nat) (del ins : CStr) : opLoop fuel [] del ins = (del, ins) := by
  cases fuel <;> simp [opLoop]

theorem opLoop_D_mid (fuel : Nat) (d r del ins : CStr) (hd : '+' ∉ d) :
    opLoop (fuel + 1) ('+' :: 'D' :: (d ++ '+' :: r)) del ins =
      opLoop fuel ('+' :: r) (del ++ d) ins := by
  simp [opLoop, opSegment, segment_then_plus d r hd]

theorem opLoop_D_end (fuel : Nat) (d del ins : CStr) (hd : '+' ∉ d) :
    opLoop (fuel + 1) ('+' :: 'D' :: d) del ins = (del ++ d, ins) := by
  simp [opLoop, opSegment, segment_clean d hd, opLoop_nil]

theorem opLoop_I_mid (fuel : Nat) (i r del ins : CStr) (hi : '+' ∉ i) :
    opLoop (fuel + 1) ('+' :: 'I' :: (i ++ '+' :: r)) del ins =
      opLoop fuel ('+' :: r) del (ins ++ i) := by
  simp [opLoop, opSegment, segment_then_plus i r hi]

theorem opLoop_I_end (fuel : Nat) (i del ins : CStr) (hi : '+' ∉ i) :
    opLoop (fuel + 1) ('+' :: 'I' :: i) del ins = (del, ins ++ i) := by
  simp [opLoop, opSegment, segment_clean i hi, opLoop_nil]

/-- C7. EditInstructionParser, one spec: for a tag code t, a delete string d and an insert string
ins without the plus sign, the spec t+Dd+Iins and the spec t+Iins+Dd both decode to tag code t,
delete d and insert ins; a spec with only the delete segment, only the insert segment, or
neither decodes with the empty string for each missing segment. -/
theorem parseSpec_segments (t d ins : CStr) (ht : '+' ∉ t) (hd : '+' ∉ d) (hi : '+' ∉ ins) :
    parseSpec (t ++ "+D".toList ++ d ++ "+I".toList ++ ins) = (t, d, ins) ∧
    parseSpec (t ++ "+I".toList ++ ins ++ "+D".toList ++ d) = (t, d, ins) ∧
    parseSpec (t ++ "+D".toList ++ d) = (t, d, []) ∧
    parseSpec (t ++ "+I".toList ++ ins) = (t, [], ins) ∧
    parseSpec t = (t, [], []) := by
  refine ⟨?_, ?_, ?_, ?_, ?_⟩
  · have e : t ++ "+D".toList ++ d ++ "+I".toList ++ ins
        = t ++ '+' :: 'D' :: (d ++ '+' :: 'I' :: ins) := by simp
    have hl : (t ++ '+' :: 'D' :: (d ++ '+' :: 'I' :: ins)).length
        = (t.length + d.length + ins.length + 2) + 1 + 1 := by
      simp only [List.length_append, List.length_cons]; omega
    rw [e, parseSpec, segment_then_plus t _ ht, hl]
    simp only [opLoop_D_mid _ d _ _ _ hd, opLoop_I_end _ ins _ _ hi, List.nil_append]
  · have e : t ++ "+I".toList ++ ins ++ "+D".toList ++ d
        = t ++ '+' :: 'I' :: (ins ++ '+' :: 'D' :: d) := by simp
    have hl : (t ++ '+' :: 'I' :: (ins ++ '+' :: 'D' :: d)).length
        = (t.length + d.length + ins.length + 2) + 1 + 1 := by
      simp only [List.length_append, List.length_cons]; omega
    rw [e, parseSpec, segment_then_plus t _ ht, hl]
    simp only [opLoop_I_mid _ ins _ _ _ hi, opLoop_D_end _ d _ _ hd, List.nil_append]
  · have e : t ++ "+D".toList ++ d = t ++ '+' :: 'D' :: d := by simp
    have hl : (t ++ '+' :: 'D' :: d).length = (t.length + d.length + 1) + 1 := by
      simp only [List.length_append, List.length_cons]; omega
    rw [e, parseSpec, segment_then_plus t _ ht, hl]
    simp only [opLoop_D_end _ d _ _ hd, List.nil_append]
  · have e : t ++ "+I".toList ++ ins = t ++ '+' :: 'I' :: ins := by simp
    have hl : (t ++ '+' :: 'I' :: ins).length = (t.length + ins.length + 1) + 1 := by
      simp only [List.length_append, List.length_cons]; omega
    rw [e, parseSpec, segment_then_plus t _ ht, hl]
    simp only [opLoop_I_end _ ins _ _ hi, List.nil_append]
  · rw [parseSpec, segment_clean t ht]
    simp only [opLoop_nil]

/-- The witness of C7: tag code V-a1S, delete aw, insert ee. -/
theorem parseSpec_segments_witness :
    ('+' ∉ "V-a1S".toList ∧ '+' ∉ "aw".toList ∧ '+' ∉ "ee".toList) ∧
    (parseSpec ("V-a1S".toList ++ "+D".toList ++ "aw".toList ++ "+I".toList ++ "ee".toList)
        = ("V-a1S".toList, "aw".toList, "ee".toList) ∧
      parseSpec ("V-a1S".toList ++ "+I".toList ++ "ee".toList ++ "+D".toList ++ "aw".toList)
        = ("V-a1S".toList, "aw".toList, "ee".toList) ∧
      parseSpec ("V-a1S".toList ++ "+D".toList ++ "aw".toList)
        = ("V-a1S".toList, "aw".toList, []) ∧
      parseSpec ("V-a1S".toList ++ "+I".toList ++ "ee".toList)
        = ("V-a1S".toList, [], "ee".toList) ∧
      parseSpec "V-a1S".toList = ("V-a1S".toList, [], [])) ∧
    "V-a1S".toList ++ "+D".toList ++ "aw".toList ++ "+I".toList ++ "ee".toList
      = "V-a1S+Daw+Iee".toList :=
  ⟨by decide, parseSpec_segments _ _ _ (by decide) (by decide) (by decide), by decide⟩

theorem timblSlots_lemmas (word : CStr) (slots : Nat → Lookup) (parts : List CStr) (n : Nat)
    (cs : List Lookup) (h : timblSlots word slots n parts = some cs) :
    cs.map (fun c => c.lookuplemma) =
      parts.map (fun part => makeLemma word (parseSpec part).2.1 (parseSpec part).2.2) := by
  induction parts generalizing n cs with
  | nil =>
    simp only [timblSlots, Option.some.injEq] at h
    subst h; rfl
  | cons p ps ih =>
    rw [timblSlots] at h
    cases hp : timblLookup word (slots n) p with
    | none => rw [hp] at h; simp at h
    | some c =>
      rw [hp] at h
      cases hps : timblSlots word slots (n + 1) ps with
      | none => rw [hps] at h; simp at h
      | some cs2 =>
        rw [hps] at h
        simp only [Option.map_some', Option.some.injEq] at h
        subst h
        have hc : c.lookuplemma = makeLemma word (parseSpec p).2.1 (parseSpec p).2.2 := by
          cases hd : splitDash (parseSpec p).1 with
          | none => simp [timblLookup, hd] at hp
          | some t =>
            simp only [timblLookup, hd, Option.map_some', Option.some.injEq] at hp
            rw [← hp]
        simp only [List.map_cons, hc, ih (n + 1) cs2 hps]

theorem skipLoop_eq (word : CStr) (lex : List LexEntry) :
    skipLoop word lex = lex.dropWhile (fun e => decide (charAt e.lexwf 0 ≠ charAt word 0)) := by
  induction lex with
  | nil => rfl
  | cons e es ih =>
    by_cases h : charAt word 0 = charAt e.lexwf 0
    · simp [skipLoop, List.dropWhile, h]
    · have h2 : ¬ charAt e.lexwf 0 = charAt word 0 := fun x => h x.symm
      simp [skipLoop, List.dropWhile, h, h2, ih]

theorem scanLoop_eq (word : CStr) (es : List LexEntry) :
    scanLoop word es =
      (es.takeWhile (fun e => decide (charAt e.lexwf 0 = charAt word 0))).filter
        (fun e => decide (e.lexwf = word)) := by
  induction es with
  | nil => rfl
  | cons e es ih =>
    by_cases h : charAt word 0 = charAt e.lexwf 0
    · have ht : List.takeWhile (fun e => decide (charAt e.lexwf 0 = charAt word 0)) (e :: es)
          = e :: List.takeWhile (fun e => decide (charAt e.lexwf 0 = charAt word 0)) es := by
        rw [List.takeWhile_cons]; simp [h]
      rw [scanLoop, if_pos h, ht]
      by_cases hw : word = e.lexwf
      · have h1 : charAt word 1 = charAt e.lexwf 1 := by rw [hw]
        rw [if_pos ⟨h1, hw⟩, List.filter_cons, ih]
        simp [hw]
      · rw [if_neg (fun x => hw x.2), List.filter_cons, ih]
        have hf : ¬ e.lexwf = word := fun x => hw x.symm
        simp [hf]
    · have ht : List.takeWhile (fun e => decide (charAt e.lexwf 0 = charAt word 0)) (e :: es)
          = [] := by
        have h2 : ¬ charAt e.lexwf 0 = charAt word 0 := fun x => h x.symm
        rw [List.takeWhile_cons]; simp [h2]
      rw [scanLoop, if_neg h, ht]
      rfl

/-- C9, as the code has it: for every lexicon and every word, the scan finds exactly the
entries whose word form equals the word among the first run of consecutive entries that start
with the word's first character: all of those, in load order. -/
theorem lexScan_first_run (lex : List LexEntry) (word : CStr) :
    lexScan lex word = (firstRun lex word).filter (fun e => decide (e.lexwf = word)) := by
  unfold lexScan firstRun
  rw [skipLoop_eq, scanLoop_eq]

/-- C9 as stated fails: in the lexicon apple, bee, ant the word ant has an entry, and the scan,
which stops at bee, finds none. -/
theorem lexScan_misses_entry :
    lexScan [LexEntry.mk "apple".toList "apple".toList "N-S".toList,
        LexEntry.mk "bee".toList "bee".toList "N-S".toList,
        LexEntry.mk "ant".toList "ant".toList "N-S".toList] "ant".toList = [] ∧
    [LexEntry.mk "apple".toList "apple".toList "N-S".toList,
        LexEntry.mk "bee".toList "bee".toList "N-S".toList,
        LexEntry.mk "ant".toList "ant".toList "N-S".toList].filter
          (fun e => decide (e.lexwf = "ant".toList))
      = [LexEntry.mk "ant".toList "ant".toList "N-S".toList] := by
  decide

theorem splitDash_eq (s : CStr) (h : '-' ∈ s) :
    splitDash s = some (classCodeOf s, suffixCodeOf s) := by
  induction s with
  | nil => simp at h
  | cons c cs ih =>
    by_cases hc : c = '-'
    · subst hc
      simp [splitDash, classCodeOf, suffixCodeOf, List.takeWhile, List.dropWhile]
    · have hm : '-' ∈ cs := by
        rcases List.mem_cons.mp h with e | e
        · exact absurd e.symm hc
        · exact e
      have ih2 := ih hm
      unfold classCodeOf suffixCodeOf at ih2 ⊢
      have hb : (c != '-') = true := by simp [hc]
      simp [splitDash, List.takeWhile, List.dropWhile, hc, hb, ih2]

theorem splitDash_none (s : CStr) (h : '-' ∉ s) : splitDash s = none := by
  induction s with
  | nil => rfl
  | cons c cs ih =>
    have hc : c ≠ '-' := fun e => h (by simp [e])
    have hm : '-' ∉ cs := fun m => h (List.mem_cons_of_mem _ m)
    simp [splitDash, hc, ih hm]

theorem lexLookup_eq (e : LexEntry) (h : '-' ∈ e.lexpos) :
    lexLookup e = some (entryLookup e) := by
  simp [lexLookup, entryLookup, splitDash_eq e.lexpos h]

theorem foundSlots_eq (es : List LexEntry) (h : ∀ x ∈ es, '-' ∈ x.lexpos) :
    foundSlots es = some (es.map entryLookup) := by
  induction es with
  | nil => rfl
  | cons e es ih =>
    have h1 := lexLookup_eq e (h e (List.mem_cons_self _ _))
    have h2 := ih (fun x hx => h x (List.mem_cons_of_mem _ hx))
    simp [foundSlots, h1, h2]

theorem lexSlots_eq (lex : List LexEntry) (word : CStr)
    (h : ∀ x ∈ lexScan lex word, '-' ∈ x.lexpos) :
    lexSlots lex word = some ((lexScan lex word).map entryLookup) :=
  foundSlots_eq _ h

theorem range_map_writeSlots (slots : Nat → Lookup) (cs : List Lookup) :
    (List.range cs.length).map (writeSlots slots cs) = cs := by
  apply List.ext_getElem
  · simp
  · intro n h1 h2
    simp [writeSlots, List.getElem?_eq_getElem h2]

theorem selectedLemma_accept (tag : CStr) (table : List ClassRow) (pre : List Lookup)
    (c : Lookup) (post : List Lookup) (word : CStr)
    (hpre : ∀ x ∈ pre, ¬ accepts tag table x) (hc : accepts tag table c) :
    selectedLemma tag table (pre ++ c :: post) word = c.lookuplemma := by
  unfold selectedLemma
  rw [select_accept tag table pre c post hpre hc]
  simp only [if_true, getD_split]

theorem selectedLemma_fallback (tag : CStr) (table : List ClassRow) (pre : List Lookup)
    (c : Lookup) (post : List Lookup) (word : CStr)
    (h : ∀ x ∈ pre ++ c :: post, ¬ accepts tag table x)
    (hpre : ∀ x ∈ pre, ¬ classMatches table x.onlytag tag)
    (hc : classMatches table c.onlytag tag) :
    selectedLemma tag table (pre ++ c :: post) word = c.lookuplemma := by
  unfold selectedLemma
  rw [select_fallback_index tag table pre c post h hpre hc]
  simp only [if_true, getD_split]

theorem lookupBlocks_lex (lex : List LexEntry) (slots : Nat → Lookup) (word change : CStr)
    (cands : List Lookup) (hp : isPunct word = false) (hl : lexSlots lex word = some cands)
    (hne : cands ≠ []) :
    lookupBlocks lex slots word change = some (cands.length, writeSlots slots cands) := by
  unfold lookupBlocks
  rw [hp, hl]
  cases cands with
  | nil => exact absurd rfl hne
  | cons c cs => simp

theorem processToken_lex (lex : List LexEntry) (table : List ClassRow) (st : State)
    (memword tag buffer change : CStr) (cands : List Lookup)
    (hp : isPunct (lookupWord st memword tag) = false)
    (hr : changeOf buffer = some change)
    (hl : lexSlots lex (lookupWord st memword tag) = some cands) (hne : cands ≠ []) :
    (processToken lex table st memword tag buffer).map (fun r => r.2) =
      some (Emitted.mk (instanceFor (lookupWord st memword tag)) memword tag
        (selectedLemma tag table cands (lookupWord st memword tag))) := by
  unfold processToken
  simp only [hr, lookupBlocks_lex lex st.slots _ change cands hp hl hne, Option.map_some',
    range_map_writeSlots]

/-- C3, as the code has it: for a token whose lookup form (the word after case normalisation) is
not a punctuation literal, given a reply of the classifier that carries a payload, when the
lexicon scan finds entries for the lookup form, each with a dash in its tag code, the
emitted lemma is that of the first found entry whose class code matches the declared tag and
whose suffix code passes the tag's verb-tense filter or, when no found entry does both, of the first
found entry whose class code matches the declared tag. -/
theorem lexicon_hit_lemma (lex : List LexEntry) (table : List ClassRow) (st : State)
    (memword tag buffer change : CStr) (pre : List LexEntry) (e : LexEntry)
    (post : List LexEntry)
    (hpunct : isPunct (lookupWord st memword tag) = false)
    (hreply : changeOf buffer = some change)
    (hfound : lexScan lex (lookupWord st memword tag) = pre ++ e :: post)
    (hdash : ∀ x ∈ lexScan lex (lookupWord st memword tag), '-' ∈ x.lexpos)
    (hsel : (entryAccepted tag table e ∧ ∀ x ∈ pre, ¬ entryAccepted tag table x) ∨
      (entryMatches tag table e ∧ (∀ x ∈ pre, ¬ entryMatches tag table x) ∧
        ∀ x ∈ pre ++ e :: post, ¬ entryAccepted tag table x)) :
    (processToken lex table st memword tag buffer).map (fun r => r.2) =
      some (Emitted.mk (instanceFor (lookupWord st memword tag)) memword tag e.lexlem) := by
  have hl := lexSlots_eq lex (lookupWord st memword tag) hdash
  rw [hfound] at hl
  have hne : (pre ++ e :: post).map entryLookup ≠ [] := by simp
  rw [processToken_lex lex table st memword tag buffer change _ hpunct hreply hl hne]
  have hmap : (pre ++ e :: post).map entryLookup
      = pre.map entryLookup ++ entryLookup e :: post.map entryLookup := by simp
  have hlem : selectedLemma tag table ((pre ++ e :: post).map entryLookup)
      (lookupWord st memword tag) = e.lexlem := by
    rw [hmap]
    rcases hsel with ⟨ha, hpre⟩ | ⟨hm, hpre, hnone⟩
    · refine selectedLemma_accept tag table _ (entryLookup e) _ _ ?_ ha
      intro x hx
      obtain ⟨y, hy, rfl⟩ := List.mem_map.mp hx
      exact hpre y hy
    · refine selectedLemma_fallback tag table _ (entryLookup e) _ _ ?_ ?_ hm
      · intro x hx
        rw [← hmap] at hx
        obtain ⟨y, hy, rfl⟩ := List.mem_map.mp hx
        exact hnone y hy
      · intro x hx
        obtain ⟨y, hy, rfl⟩ := List.mem_map.mp hx
        exact hpre y hy
  rw [hlem]

/-- The witness of C3: the word saw with declared tag VBD, the lexicon holding saw (V-e1S)
before see (V-a1S); the entry see is the first that passes the VBD filter, and see is emitted. -/
theorem lexicon_hit_lemma_witness :
    (lexScan sawLexicon (lookupWord startState "saw".toList "VBD".toList) = sawLexicon ∧
      entryAccepted "VBD".toList vbdTable (LexEntry.mk "saw".toList "see".toList "V-a1S".toList) ∧
      ¬ entryAccepted "VBD".toList vbdTable
        (LexEntry.mk "saw".toList "saw".toList "V-e1S".toList)) ∧
    (processToken sawLexicon vbdTable startState "saw".toList "VBD".toList
        "CATEGORY {V-pa+Ded+I}".toList).map (fun r => r.2) =
      some (Emitted.mk (instanceFor (lookupWord startState "saw".toList "VBD".toList))
        "saw".toList "VBD".toList "see".toList) :=
  ⟨by decide,
    lexicon_hit_lemma sawLexicon vbdTable startState "saw".toList "VBD".toList
      "CATEGORY {V-pa+Ded+I}".toList "V-pa+Ded+I".toList
      [LexEntry.mk "saw".toList "saw".toList "V-e1S".toList]
      (LexEntry.mk "saw".toList "see".toList "V-a1S".toList) []
      (by decide) (by decide) (by decide) (by decide) (Or.inl (by decide))⟩

/-- C3 as stated fails: the word saw is in the lexicon with the entry (saw, saw, V-e1S); its
tag code has the class code V, which matches the declared tag VBD, and the emitted lemma is
see, not the lemma saw of that entry. -/
theorem lexicon_hit_not_that_entry :
    LexEntry.mk "saw".toList "saw".toList "V-e1S".toList ∈ sawLexicon ∧
    entryMatches "VBD".toList vbdTable (LexEntry.mk "saw".toList "saw".toList "V-e1S".toList) ∧
    (processToken sawLexicon vbdTable startState "saw".toList "VBD".toList
        "CATEGORY {V-pa+Ded+I}".toList).map (fun r => r.2.lemma_) = some "see".toList ∧
    "see".toList ≠ (LexEntry.mk "saw".toList "saw".toList "V-e1S".toList).lexlem := by
  decide

theorem isPunct_cases (w : CStr) (h : isPunct w = true) :
    w = "?".toList ∨ w = ".".toList ∨ w = ":".toList ∨ w = ",".toList ∨ w = "(".toList ∨
    w = ")".toList ∨ w = "``".toList ∨ w = "\'\'".toList ∨ w = "BREAK".toList ∨ w = "!".toList := by
  unfold isPunct at h
  simp only [Bool.or_eq_true, beq_iff_eq] at h
  tauto

theorem normCond_punct (sentence : Nat) (let1 : Bool) (w tag : CStr) (h : isPunct w = true) :
    normCond sentence let1 w tag = false := by
  have hk : (isUpper (charAt w 0) && !strstr w "BREAK".toList) = false := by
    rcases isPunct_cases w h with e | e | e | e | e | e | e | e | e | e <;> subst e <;> decide
  unfold normCond
  cases hs : (sentence == 0 || (sentence == 1 && let1))
  · simp
  · cases hn : strstr tag "NNP".toList
    · simp only [Bool.true_and, Bool.not_false, Bool.and_true]
      exact hk
    · simp

theorem lookupWord_punct (st : State) (w tag : CStr) (h : isPunct w = true) :
    lookupWord st w tag = w := by
  unfold lookupWord
  rw [normCond_punct _ _ w tag h]
  simp

theorem select_index_lt (tag : CStr) (table : List ClassRow) (cands : List Lookup)
    (h : (select tag table cands).1 = true) : (select tag table cands).2 < cands.length := by
  by_cases ha : ∃ c ∈ cands, accepts tag table c
  · obtain ⟨pre, c, post, e, hpre, hc⟩ := exists_first_split (accepts tag table) cands ha
    rw [e, select_accept tag table pre c post hpre hc]
    simp
  · have hrej : ∀ x ∈ cands, ¬ accepts tag table x := fun x hx a => ha ⟨x, hx, a⟩
    by_cases hm : ∃ c ∈ cands, classMatches table c.onlytag tag
    · obtain ⟨pre, c, post, e, hpre, hc⟩ :=
        exists_first_split (fun x => classMatches table x.onlytag tag) cands hm
      rw [e, select_fallback_index tag table pre c post (e ▸ hrej) hpre hc]
      simp
    · have hn := select_none tag table cands (fun x hx m => hm ⟨x, hx, m⟩)
      rw [hn] at h
      exact absurd h (by simp)

theorem selectedLemma_mem (tag : CStr) (table : List ClassRow) (cands : List Lookup)
    (word : CStr) :
    selectedLemma tag table cands word = word ∨
      ∃ c ∈ cands, selectedLemma tag table cands word = c.lookuplemma := by
  unfold selectedLemma
  cases h : (select tag table cands).1
  · left; simp [h]
  · right
    have hlt := select_index_lt tag table cands h
    refine ⟨cands[(select tag table cands).2], List.getElem_mem _, ?_⟩
    simp [h, List.getD_eq_getElem?_getD, List.getElem?_eq_getElem hlt]

theorem lookupBlocks_punct (lex : List LexEntry) (slots : Nat → Lookup) (word change : CStr)
    (hp : isPunct word = true) :
    lookupBlocks lex slots word change = some (1, punctSlots slots word) := by
  unfold lookupBlocks
  rw [hp]
  simp

/-- C10, as the code has it: for every declared tag, every state and every punctuation literal
of the fixed set, given a reply of the classifier that carries a payload, the token emits the
word as read, the declared tag (not PUN) and, as lemma, the punctuation literal itself. -/
theorem punct_pass_through (lex : List LexEntry) (table : List ClassRow) (st : State)
    (memword tag buffer change : CStr) (hp : isPunct memword = true)
    (hreply : changeOf buffer = some change) :
    (processToken lex table st memword tag buffer).map (fun r => r.2) =
      some (Emitted.mk (instanceFor memword) memword tag memword) := by
  have hw := lookupWord_punct st memword tag hp
  unfold processToken
  simp only [hreply, hw, lookupBlocks_punct lex st.slots memword change hp, Option.map_some']
  have hsel : selectedLemma tag table ((List.range 1).map (punctSlots st.slots memword)) memword
      = memword := by
    rcases selectedLemma_mem tag table ((List.range 1).map (punctSlots st.slots memword)) memword
      with h | ⟨c, hc, h⟩
    · exact h
    · rw [h]
      have h1 : List.range 1 = [0] := rfl
      simp only [h1, List.map_cons, List.map_nil, List.mem_singleton] at hc
      rw [hc]
      simp [punctSlots, writeSlots]
  rw [hsel]

/-- The witness of C10: the token made of a full stop, with the declared tag made of a full
stop, at the start state. -/
theorem punct_pass_through_witness :
    (isPunct ".".toList = true ∧ changeOf "CATEGORY {X}".toList = some "X".toList) ∧
    (processToken sawLexicon vbdTable startState ".".toList ".".toList
        "CATEGORY {X}".toList).map (fun r => r.2) =
      some (Emitted.mk (instanceFor ".".toList) ".".toList ".".toList ".".toList) :=
  ⟨by decide, punct_pass_through sawLexicon vbdTable startState ".".toList ".".toList
    "CATEGORY {X}".toList "X".toList (by decide) (by decide)⟩

/-- C10 as stated fails: for the token made of a full stop with the declared tag SENT, the tag
field of the emitted record is SENT, not PUN. -/
theorem punct_tag_is_not_PUN :
    (processToken sawLexicon vbdTable startState ".".toList "SENT".toList
        "CATEGORY {X}".toList).map (fun r => (r.2.word, r.2.tag, r.2.lemma_)) =
      some (".".toList, "SENT".toList, ".".toList) ∧
    "SENT".toList ≠ "PUN".toList := by
  decide

theorem select_cases (tag : CStr) (table : List ClassRow) (cands : List Lookup) :
    (∃ pre c post, cands = pre ++ c :: post ∧ classMatches table c.onlytag tag ∧
      select tag table cands = (true, pre.length)) ∨
    ((∀ x ∈ cands, ¬ classMatches table x.onlytag tag) ∧ (select tag table cands).1 = false) := by
  by_cases ha : ∃ c ∈ cands, accepts tag table c
  · obtain ⟨pre, c, post, e, hpre, hc⟩ := exists_first_split (accepts tag table) cands ha
    exact Or.inl ⟨pre, c, post, e, hc.1, e ▸ select_accept tag table pre c post hpre hc⟩
  · have hrej : ∀ x ∈ cands, ¬ accepts tag table x := fun x hx a => ha ⟨x, hx, a⟩
    by_cases hm : ∃ c ∈ cands, classMatches table c.onlytag tag
    · obtain ⟨pre, c, post, e, hpre, hc⟩ :=
        exists_first_split (fun x => classMatches table x.onlytag tag) cands hm
      exact Or.inl ⟨pre, c, post, e, hc,
        e ▸ select_fallback_index tag table pre c post (e ▸ hrej) hpre hc⟩
    · have hno : ∀ x ∈ cands, ¬ classMatches table x.onlytag tag := fun x hx m => hm ⟨x, hx, m⟩
      exact Or.inr ⟨hno, select_none tag table cands hno⟩

/-- C18. Class-code matching: the selector reports a match exactly when some candidate and some
table row have the row's class code equal to the candidate's class code and the row's source
tag label equal to the declared tag; on a match the emitted lemma is the lemma of a
class-matching candidate, otherwise it is the pass-through word. -/
theorem select_match_iff (tag : CStr) (table : List ClassRow) (cands : List Lookup)
    (word : CStr) :
    ((select tag table cands).1 = true ↔
      ∃ c ∈ cands, ∃ row ∈ table, row.classcode = c.onlytag ∧ row.wsjclass = tag) ∧
    ((select tag table cands).1 = true →
      ∃ c ∈ cands, classMatches table c.onlytag tag ∧
        selectedLemma tag table cands word = c.lookuplemma) ∧
    ((select tag table cands).1 = false → selectedLemma tag table cands word = word) := by
  refine ⟨?_, ?_, ?_⟩
  · constructor
    · intro h
      rcases select_cases tag table cands with ⟨pre, c, post, e, hc, _⟩ | ⟨_, hf⟩
      · exact ⟨c, by rw [e]; simp, hc⟩
      · rw [hf] at h; exact absurd h (by simp)
    · rintro ⟨c, hc, hm⟩
      rcases select_cases tag table cands with ⟨pre, c2, post, e, _, hs⟩ | ⟨hno, _⟩
      · rw [hs]
      · exact absurd hm (hno c hc)
  · intro h
    rcases select_cases tag table cands with ⟨pre, c, post, e, hc, hs⟩ | ⟨_, hf⟩
    · refine ⟨c, by rw [e]; simp, hc, ?_⟩
      unfold selectedLemma
      rw [hs, e]
      simp only [if_true, getD_split]
    · rw [hf] at h; exact absurd h (by simp)
  · intro h
    unfold selectedLemma
    simp [h]

theorem instanceSlot_eq (w : CStr) (i : Nat) :
    instanceSlot w i =
      [if i < 20 - w.length then '=' else charAt w (w.length + i - 20), ' '] := by
  unfold instanceSlot HISTORY
  by_cases h : i < 20 - w.length
  · have hj : ((w.length : Int) - ((20 : Nat) : Int)) + (i : Int) < 0 := by omega
    simp only [hj, if_true, h]
    rfl
  · have hj : ¬ (((w.length : Int) - ((20 : Nat) : Int)) + (i : Int) < 0) := by omega
    have e : (((w.length : Int) - ((20 : Nat) : Int)) + (i : Int)).toNat = w.length + i - 20 := by
      omega
    simp only [hj, if_false, h, e]

theorem window_eq (w : CStr) :
    (List.range 20).map (fun i => if i < 20 - w.length then '=' else charAt w (w.length + i - 20))
      = List.replicate (20 - w.length) '=' ++ w.drop (w.length - 20) := by
  apply List.ext_getElem
  · simp only [List.length_map, List.length_range, List.length_append, List.length_replicate,
      List.length_drop]
    omega
  · intro i h1 h2
    simp only [List.length_map, List.length_range] at h1
    simp only [List.getElem_map, List.getElem_range]
    by_cases h : i < 20 - w.length
    · rw [if_pos h, List.getElem_append_left (by simpa using h)]
      simp
    · rw [if_neg h, List.getElem_append_right (by simpa using h)]
      simp only [List.length_replicate, List.getElem_drop]
      have hlt : w.length - 20 + (i - (20 - w.length)) < w.length := by omega
      have e : w.length + i - 20 = w.length - 20 + (i - (20 - w.length)) := by omega
      unfold charAt
      rw [e, List.getD_eq_getElem?_getD, List.getElem?_eq_getElem hlt]
      rfl

/-- C15. InstanceEncoder: the request is `c `, then 20 slots of one character and one space
each, then ` ?` and a newline; slot i holds the placeholder `=` when i < 20 - n and otherwise the
character of the word at index n - 20 + i (an index below n), so that the 20 slot characters
are the padding followed by the last min(n, 20) characters of the word in order. -/
theorem instanceFor_window (w : CStr) :
    instanceFor w =
      "c ".toList ++
      ((List.range 20).map (fun i =>
        [if i < 20 - w.length then '=' else charAt w (w.length + i - 20), ' '])).flatten ++
      " ?\n".toList ∧
    (∀ i, i < 20 → ¬ i < 20 - w.length → w.length + i - 20 < w.length) ∧
    (List.range 20).map (fun i => if i < 20 - w.length then '=' else charAt w (w.length + i - 20))
      = List.replicate (20 - w.length) '=' ++ w.drop (w.length - 20) ∧
    (w.drop (w.length - 20)).length = min w.length 20 := by
  refine ⟨?_, ?_, window_eq w, ?_⟩
  · unfold instanceFor
    have : List.map (instanceSlot w) (List.range HISTORY) =
        (List.range 20).map (fun i =>
          [if i < 20 - w.length then '=' else charAt w (w.length + i - 20), ' ']) := by
      unfold HISTORY
      exact List.map_congr_left (fun i _ => instanceSlot_eq w i)
    rw [this]
  · intro i h1 h2; omega
  · simp only [List.length_drop]; omega

/-- The request for the word walked. -/
theorem instanceFor_walked :
    instanceFor "walked".toList = "c = = = = = = = = = = = = = = w a l k e d  ?\n".toList := by
  decide

theorem processToken_cands (lex : List LexEntry) (table : List ClassRow) (st : State)
    (memword tag buffer change : CStr) (cands : List Lookup)
    (hr : changeOf buffer = some change)
    (hc : candidatesOf lex st.slots (lookupWord st memword tag) change = some cands) :
    ∃ st1, st1.sentence = st.sentence + 1 ∧
      processToken lex table st memword tag buffer =
        some (st1, Emitted.mk (instanceFor (lookupWord st memword tag)) memword tag
          (selectedLemma tag table cands (lookupWord st memword tag))) := by
  unfold candidatesOf at hc
  cases hb : lookupBlocks lex st.slots (lookupWord st memword tag) change with
  | none => rw [hb] at hc; simp at hc
  | some r =>
    rw [hb] at hc
    simp only [Option.map_some', Option.some.injEq] at hc
    obtain ⟨n, slots⟩ := r
    refine ⟨State.mk (st.sentence + 1)
      (if normCond st.sentence (letAfterPunct st.sentence st.let_ memword) memword tag then false
        else letAfterPunct st.sentence st.let_ memword) slots, rfl, ?_⟩
    unfold processToken
    simp only [hr, hb]
    rw [← hc]

/-- C11, as the code has it: for every token that is not a marker, given a reply that carries a
payload, when no candidate's class code matches the declared tag (also when there are no
candidates), the emitted lemma is the lookup form of the word (the word as read when it was not
case-normalised, its lowercased form when it was), the sentence position advances by one and
the loop goes on with the next token. -/
theorem lookup_miss_lemma (lex : List LexEntry) (table : List ClassRow) (st : State)
    (memword tag buffer change : CStr) (cands : List Lookup)
    (rest : List (CStr × CStr × CStr))
    (hword : charAt memword 0 ≠ '<')
    (hreply : changeOf buffer = some change)
    (hcands : candidatesOf lex st.slots (lookupWord st memword tag) change = some cands)
    (hmiss : ∀ c ∈ cands, ¬ classMatches table c.onlytag tag) :
    ∃ st1, st1.sentence = st.sentence + 1 ∧
      loopBody lex table st memword tag buffer =
        some (st1, OutLine.record memword tag (lookupWord st memword tag)) ∧
      mainLoop lex table st ((memword, tag, buffer) :: rest) =
        (mainLoop lex table st1 rest).map
          (fun q => (q.1, OutLine.record memword tag (lookupWord st memword tag) :: q.2)) := by
  obtain ⟨st1, hs, hp⟩ := processToken_cands lex table st memword tag buffer change cands
    hreply hcands
  have hsel : selectedLemma tag table cands (lookupWord st memword tag)
      = lookupWord st memword tag := by
    unfold selectedLemma
    simp [select_none tag table cands hmiss]
  rw [hsel] at hp
  have hb : loopBody lex table st memword tag buffer =
      some (st1, OutLine.record memword tag (lookupWord st memword tag)) := by
    unfold loopBody
    rw [if_pos hword, hp]
    rfl
  refine ⟨st1, hs, hb, ?_⟩
  rw [mainLoop]
  simp only [hb]

/-- The witness of C11: the word cat, declared tag NN, empty lexicon, at the start of a
sentence; the reply proposes a verb, which does not match NN, and cat is emitted as lemma. -/
theorem lookup_miss_lemma_witness :
    (charAt "cat".toList 0 ≠ '<' ∧
      changeOf "CATEGORY {V-e1S+D+I}".toList = some "V-e1S+D+I".toList ∧
      candidatesOf [] startState.slots (lookupWord startState "cat".toList "NN".toList)
        "V-e1S+D+I".toList = some [Lookup.mk "cat".toList "V-e1S".toList "V".toList []] ∧
      ∀ c ∈ [Lookup.mk "cat".toList "V-e1S".toList "V".toList []],
        ¬ classMatches vbdTable c.onlytag "NN".toList) ∧
    ∃ st1, st1.sentence = startState.sentence + 1 ∧
      loopBody [] vbdTable startState "cat".toList "NN".toList "CATEGORY {V-e1S+D+I}".toList =
        some (st1, OutLine.record "cat".toList "NN".toList
          (lookupWord startState "cat".toList "NN".toList)) ∧
      mainLoop [] vbdTable startState
          (("cat".toList, "NN".toList, "CATEGORY {V-e1S+D+I}".toList) :: []) =
        (mainLoop [] vbdTable st1 []).map
          (fun q => (q.1, OutLine.record "cat".toList "NN".toList
            (lookupWord startState "cat".toList "NN".toList) :: q.2)) :=
  ⟨by decide,
    lookup_miss_lemma [] vbdTable startState "cat".toList "NN".toList
      "CATEGORY {V-e1S+D+I}".toList "V-e1S+D+I".toList
      [Lookup.mk "cat".toList "V-e1S".toList "V".toList []] []
      (by decide) (by decide) (by decide) (by decide)⟩

/-- C11 as stated fails: the word The with declared tag DT at the start of a sentence, with no
candidate, is emitted with the lemma the, not with the word as read. -/
theorem lookup_miss_not_word_as_read :
    (processToken [] vbdTable startState "The".toList "DT".toList "CATEGORY {}".toList).map
        (fun r => (r.2.word, r.2.tag, r.2.lemma_)) =
      some ("The".toList, "DT".toList, "the".toList) ∧
    candidatesOf [] startState.slots (lookupWord startState "The".toList "DT".toList) [] =
      some [] ∧
    "the".toList ≠ "The".toList := by
  decide

/-- C12, as the code has it: every token that is not a marker sends exactly one request,
the instance of its lookup form, whether or not that form is a punctuation literal or has lexicon
entries; the request is the one a completed step records; a marker sends none. -/
theorem one_request_per_token (lex : List LexEntry) (table : List ClassRow) (st : State)
    (word tag buffer : CStr) :
    (charAt word 0 ≠ '<' →
      sockWrites st word tag = [instanceFor (lookupWord st word tag)] ∧
      ∀ r, processToken lex table st word tag buffer = some r →
        [r.2.request] = sockWrites st word tag) ∧
    (charAt word 0 = '<' → sockWrites st word tag = []) := by
  refine ⟨fun h => ⟨by simp [sockWrites, h], ?_⟩, fun h => by simp [sockWrites, h]⟩
  intro r hr
  unfold processToken at hr
  cases hc : changeOf buffer with
  | none => simp [hc] at hr
  | some change =>
    cases hb : lookupBlocks lex st.slots (lookupWord st word tag) change with
    | none => simp [hc, hb] at hr
    | some q =>
      simp only [hc, hb, Option.some.injEq] at hr
      rw [← hr]
      simp [sockWrites, h]

/-- C12 as stated fails: a request is sent for the punctuation token made of a full stop, and
one for the word saw, which has lexicon entries. -/
theorem request_sent_for_punct_and_lexicon_hit :
    isPunct (lookupWord startState ".".toList ".".toList) = true ∧
    sockWrites startState ".".toList ".".toList = [instanceFor ".".toList] ∧
    (processToken sawLexicon vbdTable startState ".".toList ".".toList
        "CATEGORY {X}".toList).map (fun r => r.2.request) = some (instanceFor ".".toList) ∧
    lexScan sawLexicon (lookupWord startState "saw".toList "VBD".toList) = sawLexicon ∧
    sockWrites startState "saw".toList "VBD".toList = [instanceFor "saw".toList] ∧
    (processToken sawLexicon vbdTable startState "saw".toList "VBD".toList
        "CATEGORY {X}".toList).map (fun r => r.2.request) = some (instanceFor "saw".toList) := by
  decide

theorem lowerWord_eq_lowerAll (w : CStr) (hu : isUpper (charAt w 0) = true) :
    lowerWord w = lowerAll w := by
  cases w with
  | nil => exact absurd hu (by decide)
  | cons c cs =>
    have hc : isUpper c = true := hu
    simp [lowerWord, lowerAll, hc]

theorem lookupWord_normalised (st : State) (w tag : CStr)
    (hpos : st.sentence = 0 ∨ (st.sentence = 1 ∧ st.let_ = true))
    (hu : isUpper (charAt w 0) = true) (hn : strstr tag "NNP".toList = false)
    (hb : strstr w "BREAK".toList = false) :
    lookupWord st w tag = lowerAll w := by
  have hc : normCond st.sentence (letAfterPunct st.sentence st.let_ w) w tag = true := by
    have hn2 : strstr tag ['N', 'N', 'P'] = false := hn
    have hb2 : strstr w ['B', 'R', 'E', 'A', 'K'] = false := hb
    unfold normCond letAfterPunct
    rcases hpos with h | ⟨h, hl⟩
    · simp [h, hu, hn2, hb2]
    · simp [h, hl, hu, hn2, hb2]
  unfold lookupWord
  rw [hc, if_pos rfl, lowerWord_eq_lowerAll w hu]

/-- C13, as the code has it: for a token at the sentence-initial position whose word begins with
an uppercase letter, whose declared tag does not contain NNP and whose word does not contain
BREAK, the form used for lookup and classification is the word with every uppercase letter
lowercased, not only its leading run; the other characters are unchanged. -/
theorem normalize_lowers_every_capital (st : State) (memword tag : CStr)
    (h0 : st.sentence = 0) (hu : isUpper (charAt memword 0) = true)
    (hn : strstr tag "NNP".toList = false) (hb : strstr memword "BREAK".toList = false) :
    lookupWord st memword tag = lowerAll memword ∧
    sockWrites st memword tag = [instanceFor (lowerAll memword)] := by
  have hw := lookupWord_normalised st memword tag (Or.inl h0) hu hn hb
  refine ⟨hw, ?_⟩
  have hm : charAt memword 0 ≠ '<' := by
    intro e
    rw [e] at hu
    exact absurd hu (by decide)
  simp [sockWrites, hm, hw]

/-- The witness of C13: the word McDonald with declared tag NN at the start of a sentence. -/
theorem normalize_lowers_every_capital_witness :
    (startState.sentence = 0 ∧ isUpper (charAt "McDonald".toList 0) = true ∧
      strstr "NN".toList "NNP".toList = false ∧
      strstr "McDonald".toList "BREAK".toList = false) ∧
    (lookupWord startState "McDonald".toList "NN".toList = lowerAll "McDonald".toList ∧
      sockWrites startState "McDonald".toList "NN".toList
        = [instanceFor (lowerAll "McDonald".toList)]) ∧
    lowerAll "McDonald".toList = "mcdonald".toList :=
  ⟨by decide,
    normalize_lowers_every_capital startState "McDonald".toList "NN".toList
      (by decide) (by decide) (by decide) (by decide),
    by decide⟩

/-- C13 as stated fails: at the start of a sentence the word McDonald with declared tag NN is
looked up as mcdonald, while lowercasing only its leading run of uppercase letters gives
mcDonald. -/
theorem normalize_not_leading_run_only :
    lookupWord startState "McDonald".toList "NN".toList = "mcdonald".toList ∧
    lowerLeadingRun "McDonald".toList = "mcDonald".toList ∧
    lookupWord startState "McDonald".toList "NN".toList ≠ lowerLeadingRun "McDonald".toList := by
  decide

theorem processToken_punct_state (lex : List LexEntry) (table : List ClassRow) (st : State)
    (p ptag pbuf change : CStr) (h0 : st.sentence = 0) (hp : isPunct p = true)
    (hreply : changeOf pbuf = some change) :
    ∃ st1 out, processToken lex table st p ptag pbuf = some (st1, out) ∧
      st1.sentence = 1 ∧ st1.let_ = true := by
  have hw := lookupWord_punct st p ptag hp
  have hn := normCond_punct st.sentence (letAfterPunct st.sentence st.let_ p) p ptag hp
  have hl : letAfterPunct st.sentence st.let_ p = true := by
    simp [letAfterPunct, h0, hp]
  refine ⟨State.mk (st.sentence + 1) true (punctSlots st.slots p),
    Emitted.mk (instanceFor p) p ptag
      (selectedLemma ptag table ((List.range 1).map (punctSlots st.slots p)) p),
    ?_, by simp [h0], rfl⟩
  rw [hl] at hn
  unfold processToken
  simp only [hreply, hw, lookupBlocks_punct lex st.slots p change hp, hl, hn]
  rfl

/-- C14, as the code has it: when a punctuation literal stands at position 0 of a sentence (and
the reply to its request carries a payload), the token right after it, at position 1, is
case-normalised if its word begins with an uppercase letter, its declared tag does not contain
NNP and its word does not contain BREAK. -/
theorem normalize_after_opening_punct (lex : List LexEntry) (table : List ClassRow) (st : State)
    (p ptag pbuf change w tag : CStr) (h0 : st.sentence = 0) (hp : isPunct p = true)
    (hreply : changeOf pbuf = some change)
    (hu : isUpper (charAt w 0) = true) (hn : strstr tag "NNP".toList = false)
    (hb : strstr w "BREAK".toList = false) :
    ∃ st1 out, processToken lex table st p ptag pbuf = some (st1, out) ∧
      st1.sentence = 1 ∧ lookupWord st1 w tag = lowerAll w := by
  obtain ⟨st1, out, hs, h1, hl⟩ :=
    processToken_punct_state lex table st p ptag pbuf change h0 hp hreply
  exact ⟨st1, out, hs, h1, lookupWord_normalised st1 w tag (Or.inr ⟨h1, hl⟩) hu hn hb⟩

/-- The witness of C14: an opening quote at position 0, then the word The with tag DT. -/
theorem normalize_after_opening_punct_witness :
    (startState.sentence = 0 ∧ isPunct "``".toList = true ∧
      changeOf "CATEGORY {X}".toList = some "X".toList ∧
      isUpper (charAt "The".toList 0) = true ∧ strstr "DT".toList "NNP".toList = false ∧
      strstr "The".toList "BREAK".toList = false) ∧
    (∃ st1 out, processToken [] vbdTable startState "``".toList "``".toList
        "CATEGORY {X}".toList = some (st1, out) ∧
      st1.sentence = 1 ∧ lookupWord st1 "The".toList "DT".toList = lowerAll "The".toList) ∧
    lowerAll "The".toList = "the".toList :=
  ⟨by decide,
    normalize_after_opening_punct [] vbdTable startState "``".toList "``".toList
      "CATEGORY {X}".toList "X".toList "The".toList "DT".toList
      (by decide) (by decide) (by decide) (by decide) (by decide) (by decide),
    by decide⟩

/-- C14 as stated fails: in the sentence he . The the full stop stands at position 1 and the
word The, right after it at position 2, with tag DT, is not case-normalised: it is looked up
and emitted as The. -/
theorem no_normalize_after_later_punct :
    isPunct ".".toList = true ∧
    (mainLoop [] vbdTable startState
        [("he".toList, "PRP".toList, "CATEGORY {}".toList),
         (".".toList, ".".toList, "CATEGORY {}".toList)]).map
      (fun q => (q.1.sentence, lookupWord q.1 "The".toList "DT".toList)) =
      some (2, "The".toList) ∧
    (mainLoop [] vbdTable startState
        [("he".toList, "PRP".toList, "CATEGORY {}".toList),
         (".".toList, ".".toList, "CATEGORY {}".toList),
         ("The".toList, "DT".toList, "CATEGORY {}".toList)]).map (fun q => q.2) =
      some [OutLine.record "he".toList "PRP".toList "he".toList,
        OutLine.record ".".toList ".".toList ".".toList,
        OutLine.record "The".toList "DT".toList "The".toList] ∧
    lowerAll "The".toList ≠ "The".toList := by
  decide

/-- C16, the code at a failing input.  The word walked with declared tag VBD is not in the
lexicon and the reply proposes walk (V-a1S) before walked (V-e1S); the suffix code a1S of the
first candidate passes the VBD filter.  At the start of a run walk is emitted; right after the
token saw, whose lexicon entries left e1S and a1S in the first two suffix slots, the same token
with the same reply is emitted with the lemma walked. -/
theorem timbl_filter_reads_old_suffix :
    (strtokParts "V-a1S+Ded+I|V-e1S+D+I".toList).map (fun p => suffixCodeOf (parseSpec p).1)
      = ["a1S".toList, "e1S".toList] ∧
    passesFilter "VBD".toList "a1S".toList ∧
    (mainLoop sawLexicon vbdTable startState
        [("walked".toList, "VBD".toList, "CATEGORY {V-a1S+Ded+I|V-e1S+D+I}".toList)]).map
      (fun q => q.2) = some [OutLine.record "walked".toList "VBD".toList "walk".toList] ∧
    (mainLoop sawLexicon vbdTable startState
        [("saw".toList, "VBD".toList, "CATEGORY {X}".toList),
         ("walked".toList, "VBD".toList, "CATEGORY {V-a1S+Ded+I|V-e1S+D+I}".toList)]).map
      (fun q => q.2) = some [OutLine.record "saw".toList "VBD".toList "see".toList,
        OutLine.record "walked".toList "VBD".toList "walked".toList] := by
  decide

/-- C17, the code at a failing input.  A tag code with a dash is split at its first dash; for
the lexicon entry (the, the, DT), whose tag code has no dash, the copy loop of lines 314-318
finds no dash before the terminator and the step for the word the has no defined result. -/
theorem lexicon_tag_without_dash :
    splitDash "V-e1S".toList = some ("V".toList, "e1S".toList) ∧
    splitDash "DT".toList = none ∧
    lexLookup (LexEntry.mk "the".toList "the".toList "DT".toList) = none ∧
    (processToken [LexEntry.mk "the".toList "the".toList "DT".toList] vbdTable startState
        "the".toList "DT".toList "CATEGORY {X-y}".toList).isNone = true := by
  decide

/-- C19, the code at a failing input.  The payload V+Ded holds one spec, with tag code V; the
copy loop of lines 404-408 finds no dash in it before the terminator and the step for the word
walked has no defined result, while the payload V-pa+Ded gives one candidate, walk. -/
theorem spec_tag_without_dash :
    strtokParts "V+Ded".toList = ["V+Ded".toList] ∧
    parseSpec "V+Ded".toList = ("V".toList, "ed".toList, []) ∧
    timblLookup "walked".toList default "V+Ded".toList = none ∧
    (processToken [] vbdTable startState "walked".toList "VBD".toList
        "CATEGORY {V+Ded}".toList).isNone = true ∧
    candidatesOf [] startState.slots "walked".toList "V-pa+Ded".toList =
      some [Lookup.mk "walk".toList "V-pa".toList "V".toList []] := by
  decide

/-- C20. Structural markers: a field whose first character is the marker character is written
unchanged as a line of its own, whatever the lexicon, the table, the next field and the reply;
no request is sent; the sentence position is reset to 0, so that the next token meets the
position test of the case normalisation as a sentence-initial one, whatever the flag `let`
holds. -/
theorem marker_pass_through (lex : List LexEntry) (table : List ClassRow) (st : State)
    (word tag buffer : CStr) (h : charAt word 0 = '<') :
    loopBody lex table st word tag buffer =
      some (State.mk 0 st.let_ st.slots, OutLine.markerLine word) ∧
    sockWrites st word tag = [] ∧
    ∀ w t, normCond 0 (letAfterPunct 0 st.let_ w) w t =
      (isUpper (charAt w 0) && !strstr t "NNP".toList && !strstr w "BREAK".toList) := by
  refine ⟨?_, ?_, ?_⟩
  · unfold loopBody
    simp [h]
  · simp [sockWrites, h]
  · intro w t
    unfold normCond
    simp

/-- The witness of C20: the marker made of an s between angle brackets, then the word The. -/
theorem marker_pass_through_witness :
    charAt "<s>".toList 0 = '<' ∧
    (loopBody sawLexicon vbdTable startState "<s>".toList "x".toList "y".toList =
        some (State.mk 0 startState.let_ startState.slots, OutLine.markerLine "<s>".toList) ∧
      sockWrites startState "<s>".toList "x".toList = [] ∧
      ∀ w t, normCond 0 (letAfterPunct 0 startState.let_ w) w t =
        (isUpper (charAt w 0) && !strstr t "NNP".toList && !strstr w "BREAK".toList)) ∧
    (mainLoop [] vbdTable (State.mk 5 true (fun _ => default))
        [("<s>".toList, [], []), ("The".toList, "DT".toList, "CATEGORY {}".toList)]).map
      (fun q => q.2) =
      some [OutLine.markerLine "<s>".toList,
        OutLine.record "The".toList "DT".toList "the".toList] :=
  ⟨by decide, marker_pass_through sawLexicon vbdTable startState "<s>".toList "x".toList
    "y".toList (by decide), by decide⟩

theorem strtokGo_append (s rest cur : CStr) (hs : '|' ∉ s) :
    strtokGo (s ++ rest) cur = strtokGo rest (cur ++ s) := by
  induction s generalizing cur with
  | nil => simp
  | cons c cs ih =>
    have hc : c ≠ '|' := fun e => hs (by simp [e])
    have hcs : '|' ∉ cs := fun m => hs (List.mem_cons_of_mem _ m)
    rw [List.cons_append, strtokGo, if_neg hc, ih _ hcs]
    simp

theorem strtokParts_joinBar (specs : List CStr)
    (h : ∀ s ∈ specs, s ≠ [] ∧ '|' ∉ s) : strtokParts (joinBar specs) = specs := by
  unfold strtokParts
  induction specs with
  | nil => simp [joinBar, strtokGo]
  | cons s ss ih =>
    have hs := h s (List.mem_cons_self _ _)
    have hss : ∀ x ∈ ss, x ≠ [] ∧ '|' ∉ x := fun x hx => h x (List.mem_cons_of_mem _ hx)
    cases ss with
    | nil =>
      have := strtokGo_append s [] [] hs.2
      simp only [List.append_nil, List.nil_append] at this
      rw [joinBar, this, strtokGo, if_neg hs.1]
    | cons t ts =>
      rw [joinBar, strtokGo_append s _ [] hs.2, List.nil_append, strtokGo]
      simp only [if_true, if_neg hs.1]
      rw [ih hss]

theorem timblLookup_dashed (word : CStr) (old : Lookup) (part : CStr)
    (h : '-' ∈ (parseSpec part).1) :
    timblLookup word old part = some (specCandidate word part old.celex_suffix) := by
  simp [timblLookup, specCandidate, splitDash_eq _ h]

theorem timblSlots_dashed (word : CStr) (slots : Nat → Lookup) (parts : List CStr) (n : Nat)
    (h : ∀ p ∈ parts, '-' ∈ (parseSpec p).1) :
    timblSlots word slots n parts =
      some (List.zipWith (specCandidate word) parts
        ((List.range' n parts.length).map (fun k => (slots k).celex_suffix))) := by
  induction parts generalizing n with
  | nil => rfl
  | cons p ps ih =>
    rw [timblSlots, timblLookup_dashed word (slots n) p (h p (List.mem_cons_self _ _)),
      ih (n + 1) (fun x hx => h x (List.mem_cons_of_mem _ hx))]
    simp [List.range'_succ]

theorem candidatesOf_timbl (lex : List LexEntry) (slots : Nat → Lookup) (word change : CStr)
    (cs : List Lookup) (hp : isPunct word = false) (hl : lexScan lex word = [])
    (ht : timblSlots word slots 0 (strtokParts change) = some cs) :
    candidatesOf lex slots word change = some cs := by
  unfold candidatesOf lookupBlocks
  have hls : lexSlots lex word = some [] := by
    unfold lexSlots; rw [hl]; rfl
  rw [hp, hls]
  simp only [Bool.false_eq_true, if_false, ht, Option.map_some', range_map_writeSlots]

/-- One candidate per spec, for tag codes with a dash: for a word that is neither a punctuation
literal nor found in the lexicon, and a payload made of non-empty specs without bar, joined by
single bars, each with a dash in its tag code, the candidates are as many as the specs, in
payload order; the i-th holds the lemma computed from the i-th spec, its tag code and its class
code, and keeps the suffix code that slot i held before. -/
theorem one_candidate_per_dashed_spec (lex : List LexEntry) (slots : Nat → Lookup)
    (word : CStr) (specs : List CStr)
    (hs : ∀ s ∈ specs, s ≠ [] ∧ '|' ∉ s) (hd : ∀ s ∈ specs, '-' ∈ (parseSpec s).1)
    (hp : isPunct word = false) (hl : lexScan lex word = []) :
    ∃ cs, candidatesOf lex slots word (joinBar specs) = some cs ∧ cs.length = specs.length ∧
      cs = List.zipWith (specCandidate word) specs
        ((List.range' 0 specs.length).map (fun k => (slots k).celex_suffix)) := by
  refine ⟨_, ?_, ?_, rfl⟩
  · apply candidatesOf_timbl lex slots word _ _ hp hl
    rw [strtokParts_joinBar specs hs]
    exact timblSlots_dashed word slots specs 0 hd
  · simp

/-- The payload V-pa+Ded+I|V-e1S+De on the word walked gives the two candidates walk (V-pa) and
walked (V-e1S). -/
theorem one_candidate_per_dashed_spec_witness :
    ((∀ s ∈ ["V-pa+Ded+I".toList, "V-e1S+De".toList], s ≠ [] ∧ '|' ∉ s) ∧
      (∀ s ∈ ["V-pa+Ded+I".toList, "V-e1S+De".toList], '-' ∈ (parseSpec s).1) ∧
      isPunct "walked".toList = false ∧ lexScan sawLexicon "walked".toList = []) ∧
    (∃ cs, candidatesOf sawLexicon startState.slots "walked".toList
        (joinBar ["V-pa+Ded+I".toList, "V-e1S+De".toList]) = some cs ∧
      cs.length = ["V-pa+Ded+I".toList, "V-e1S+De".toList].length ∧
      cs = List.zipWith (specCandidate "walked".toList)
        ["V-pa+Ded+I".toList, "V-e1S+De".toList]
        ((List.range' 0 ["V-pa+Ded+I".toList, "V-e1S+De".toList].length).map
          (fun k => (startState.slots k).celex_suffix))) ∧
    candidatesOf sawLexicon startState.slots "walked".toList "V-pa+Ded+I|V-e1S+De".toList =
      some [Lookup.mk "walk".toList "V-pa".toList "V".toList [],
        Lookup.mk "walked".toList "V-e1S".toList "V".toList []] :=
  ⟨by decide,
    one_candidate_per_dashed_spec sawLexicon startState.slots "walked".toList
      ["V-pa+Ded+I".toList, "V-e1S+De".toList] (by decide) (by decide) (by decide) (by decide),
    by decide⟩

theorem classCode_dash_suffixCode (s : CStr) (h : '-' ∈ s) :
    classCodeOf s ++ '-' :: suffixCodeOf s = s ∧ '-' ∉ classCodeOf s := by
  induction s with
  | nil => simp at h
  | cons c cs ih =>
    by_cases hc : c = '-'
    · subst hc
      simp [classCodeOf, suffixCodeOf, List.takeWhile, List.dropWhile]
    · have hm : '-' ∈ cs := by
        rcases List.mem_cons.mp h with e | e
        · exact absurd e.symm hc
        · exact e
      have ih2 := ih hm
      have hb : (c != '-') = true := by simp [hc]
      have hc2 : ¬ '-' = c := fun e => hc e.symm
      unfold classCodeOf suffixCodeOf at ih2 ⊢
      simp only [List.takeWhile, hb, List.dropWhile, List.cons_append, List.cons.injEq, true_and,
        List.mem_cons, not_or]
      exact ⟨ih2.1, hc2, ih2.2⟩

/-- Splitting a lexicon tag code that has a dash: the slot written for the entry holds the
entry's lemma and tag code, the class code (the tag code up to its first dash, itself without
dash) and the suffix code (everything after that dash), and class code, dash and suffix code
make up the tag code again. -/
theorem lexicon_tag_with_dash (e : LexEntry) (h : '-' ∈ e.lexpos) :
    lexLookup e =
      some (Lookup.mk e.lexlem e.lexpos (classCodeOf e.lexpos) (suffixCodeOf e.lexpos)) ∧
    classCodeOf e.lexpos ++ '-' :: suffixCodeOf e.lexpos = e.lexpos ∧
    '-' ∉ classCodeOf e.lexpos := by
  refine ⟨?_, classCode_dash_suffixCode e.lexpos h⟩
  simp [lexLookup, splitDash_eq e.lexpos h]

/-- The entry (saw, see, V-a1S) is split into the class code V and the suffix code a1S. -/
theorem lexicon_tag_with_dash_witness :
    '-' ∈ (LexEntry.mk "saw".toList "see".toList "V-a1S".toList).lexpos ∧
    (lexLookup (LexEntry.mk "saw".toList "see".toList "V-a1S".toList) =
        some (Lookup.mk (LexEntry.mk "saw".toList "see".toList "V-a1S".toList).lexlem
          (LexEntry.mk "saw".toList "see".toList "V-a1S".toList).lexpos
          (classCodeOf (LexEntry.mk "saw".toList "see".toList "V-a1S".toList).lexpos)
          (suffixCodeOf (LexEntry.mk "saw".toList "see".toList "V-a1S".toList).lexpos)) ∧
      classCodeOf (LexEntry.mk "saw".toList "see".toList "V-a1S".toList).lexpos ++
          '-' :: suffixCodeOf (LexEntry.mk "saw".toList "see".toList "V-a1S".toList).lexpos =
        (LexEntry.mk "saw".toList "see".toList "V-a1S".toList).lexpos ∧
      '-' ∉ classCodeOf (LexEntry.mk "saw".toList "see".toList "V-a1S".toList).lexpos) ∧
    lexLookup (LexEntry.mk "saw".toList "see".toList "V-a1S".toList) =
      some (Lookup.mk "see".toList "V-a1S".toList "V".toList "a1S".toList) :=
  ⟨by decide, lexicon_tag_with_dash _ (by decide), by decide⟩

theorem renderSegments_shape (segs : List (Char × CStr)) :
    renderSegments segs = [] ∨ ∃ r, renderSegments segs = '+' :: r := by
  cases segs with
  | nil => exact Or.inl rfl
  | cons s ss => exact Or.inr ⟨_, rfl⟩

theorem opLoop_D_step (fuel : Nat) (d rest del ins : CStr) (hd : '+' ∉ d)
    (hr : rest = [] ∨ ∃ r, rest = '+' :: r) :
    opLoop (fuel + 1) ('+' :: 'D' :: (d ++ rest)) del ins = opLoop fuel rest (del ++ d) ins := by
  rcases hr with h | ⟨r, h⟩
  · subst h
    rw [List.append_nil, opLoop_D_end fuel d del ins hd, opLoop_nil]
  · subst h
    exact opLoop_D_mid fuel d r del ins hd

theorem opLoop_I_step (fuel : Nat) (i rest del ins : CStr) (hi : '+' ∉ i)
    (hr : rest = [] ∨ ∃ r, rest = '+' :: r) :
    opLoop (fuel + 1) ('+' :: 'I' :: (i ++ rest)) del ins = opLoop fuel rest del (ins ++ i) := by
  rcases hr with h | ⟨r, h⟩
  · subst h
    rw [List.append_nil, opLoop_I_end fuel i del ins hi, opLoop_nil]
  · subst h
    exact opLoop_I_mid fuel i r del ins hi

theorem opLoop_segments (segs : List (Char × CStr)) (fuel : Nat) (del ins : CStr)
    (h : ∀ s ∈ segs, (s.1 = 'D' ∨ s.1 = 'I') ∧ '+' ∉ s.2) (hf : segs.length ≤ fuel) :
    opLoop fuel (renderSegments segs) del ins =
      (del ++ segmentsOf 'D' segs, ins ++ segmentsOf 'I' segs) := by
  induction segs generalizing fuel del ins with
  | nil => simp [renderSegments, segmentsOf, opLoop_nil]
  | cons s ss ih =>
    obtain ⟨op, body⟩ := s
    have hs := h (op, body) (List.mem_cons_self _ _)
    have hss : ∀ x ∈ ss, (x.1 = 'D' ∨ x.1 = 'I') ∧ '+' ∉ x.2 :=
      fun x hx => h x (List.mem_cons_of_mem _ hx)
    cases fuel with
    | zero => simp at hf
    | succ f =>
      have hf2 : ss.length ≤ f := by simpa using hf
      simp only at hs
      rcases hs.1 with e | e
      · subst e
        rw [renderSegments, opLoop_D_step f body _ del ins hs.2 (renderSegments_shape ss),
          ih f _ _ hss hf2]
        simp [segmentsOf]
      · subst e
        rw [renderSegments, opLoop_I_step f body _ del ins hs.2 (renderSegments_shape ss),
          ih f _ _ hss hf2]
        simp [segmentsOf]

/-- C26. Repeated segments: for a spec made of a tag code without plus sign followed by any
number of segments, each a plus sign, the opcode D or I, and characters without plus sign, the
decoded delete string is the concatenation of all delete segments in spec order and the decoded
insert string that of all insert segments. -/
theorem parseSpec_repeated_segments (t : CStr) (segs : List (Char × CStr)) (ht : '+' ∉ t)
    (h : ∀ s ∈ segs, (s.1 = 'D' ∨ s.1 = 'I') ∧ '+' ∉ s.2) :
    parseSpec (t ++ renderSegments segs) = (t, segmentsOf 'D' segs, segmentsOf 'I' segs) := by
  have hlen : segs.length ≤ (t ++ renderSegments segs).length := by
    have : ∀ l : List (Char × CStr), l.length ≤ (renderSegments l).length := by
      intro l
      induction l with
      | nil => simp
      | cons s ss ih => simp only [renderSegments, List.length_cons, List.length_append]; omega
    have := this segs
    simp only [List.length_append]; omega
  have hseg : segment (t ++ renderSegments segs) = (t, renderSegments segs) := by
    rcases renderSegments_shape segs with e | ⟨r, e⟩
    · rw [e, List.append_nil, segment_clean t ht]
    · rw [e, segment_then_plus t r ht]
  rw [parseSpec, hseg]
  simp only [opLoop_segments segs _ [] [] h hlen, List.nil_append]

/-- The witness of C26: the spec V+Da+Db decodes to tag code V, delete ab and empty insert. -/
theorem parseSpec_repeated_segments_witness :
    ('+' ∉ "V".toList ∧
      ∀ s ∈ [('D', "a".toList), ('D', "b".toList)], (s.1 = 'D' ∨ s.1 = 'I') ∧ '+' ∉ s.2) ∧
    parseSpec ("V".toList ++ renderSegments [('D', "a".toList), ('D', "b".toList)]) =
      ("V".toList, segmentsOf 'D' [('D', "a".toList), ('D', "b".toList)],
        segmentsOf 'I' [('D', "a".toList), ('D', "b".toList)]) ∧
    "V".toList ++ renderSegments [('D', "a".toList), ('D', "b".toList)] = "V+Da+Db".toList ∧
    parseSpec "V+Da+Db".toList = ("V".toList, "ab".toList, []) :=
  ⟨by decide, parseSpec_repeated_segments _ _ (by decide) (by decide), by decide, by decide⟩

theorem classMatches_of_samePairs (t1 t2 : List ClassRow) (h : samePairs t1 t2)
    (code tag : CStr) : classMatches t1 code tag ↔ classMatches t2 code tag := by
  unfold classMatches
  have := h tag code
  constructor
  · rintro ⟨row, hr, hc, hw⟩
    obtain ⟨row2, hr2, hw2, hc2⟩ := this.mp ⟨row, hr, hw, hc⟩
    exact ⟨row2, hr2, hc2, hw2⟩
  · rintro ⟨row, hr, hc, hw⟩
    obtain ⟨row2, hr2, hw2, hc2⟩ := this.mpr ⟨row, hr, hw, hc⟩
    exact ⟨row2, hr2, hc2, hw2⟩

theorem candLoop_congr (tag : CStr) (t1 t2 : List ClassRow)
    (h : ∀ code, classMatches t1 code tag ↔ classMatches t2 code tag)
    (cands : List Lookup) (l : Nat) (m : Int) :
    candLoop tag t1 cands l m = candLoop tag t2 cands l m := by
  induction cands generalizing l m with
  | nil => rfl
  | cons x xs ih =>
    have hx := h x.onlytag
    have ha : accepts tag t1 x ↔ accepts tag t2 x := by
      unfold accepts; rw [hx]
    rw [candLoop_cons, candLoop_cons]
    by_cases a1 : accepts tag t1 x
    · have a2 := ha.mp a1
      rw [if_pos a1, if_pos a2]
      by_cases c1 : classMatches t1 x.onlytag tag ∧ m < 0
      · have c2 : classMatches t2 x.onlytag tag ∧ m < 0 := ⟨hx.mp c1.1, c1.2⟩
        rw [if_pos c1, if_pos c2]
      · have c2 : ¬ (classMatches t2 x.onlytag tag ∧ m < 0) := fun c => c1 ⟨hx.mpr c.1, c.2⟩
        rw [if_neg c1, if_neg c2]
    · have a2 : ¬ accepts tag t2 x := fun a => a1 (ha.mpr a)
      rw [if_neg a1, if_neg a2]
      by_cases c1 : classMatches t1 x.onlytag tag ∧ m < 0
      · have c2 : classMatches t2 x.onlytag tag ∧ m < 0 := ⟨hx.mp c1.1, c1.2⟩
        rw [if_pos c1, if_pos c2, ih]
      · have c2 : ¬ (classMatches t2 x.onlytag tag ∧ m < 0) := fun c => c1 ⟨hx.mpr c.1, c.2⟩
        rw [if_neg c1, if_neg c2, ih]

theorem select_congr (tag : CStr) (t1 t2 : List ClassRow) (h : samePairs t1 t2)
    (cands : List Lookup) (word : CStr) :
    select tag t1 cands = select tag t2 cands ∧
      selectedLemma tag t1 cands word = selectedLemma tag t2 cands word := by
  have hs : select tag t1 cands = select tag t2 cands := by
    unfold select
    rw [candLoop_congr tag t1 t2 (fun code => classMatches_of_samePairs t1 t2 h code tag)]
  refine ⟨hs, ?_⟩
  unfold selectedLemma
  rw [hs]

theorem samePairs_of_mem_iff (t1 t2 : List ClassRow) (h : ∀ row, row ∈ t1 ↔ row ∈ t2) :
    samePairs t1 t2 := by
  intro src code
  constructor
  · rintro ⟨row, hr, hp⟩; exact ⟨row, (h row).mp hr, hp⟩
  · rintro ⟨row, hr, hp⟩; exact ⟨row, (h row).mpr hr, hp⟩

/-- C24. The selector depends on the class-code table only through its set of (source tag
label, class code) pairs: for two tables with the same set of pairs, and so for a permutation
of the rows, for a table with one of its rows inserted once more, and for a table whose target
tag labels are changed, the selector reports a match for the same inputs, at the same
candidate, and the selected lemma is the same. -/
theorem select_depends_on_pairs (tag : CStr) (cands : List Lookup) (word : CStr)
    (t1 : List ClassRow) :
    (∀ t2, samePairs t1 t2 →
      select tag t1 cands = select tag t2 cands ∧
        selectedLemma tag t1 cands word = selectedLemma tag t2 cands word) ∧
    (∀ t2, t1.Perm t2 →
      select tag t1 cands = select tag t2 cands ∧
        selectedLemma tag t1 cands word = selectedLemma tag t2 cands word) ∧
    (∀ row ∈ t1, ∀ pre post, t1 = pre ++ post →
      select tag t1 cands = select tag (pre ++ row :: post) cands ∧
        selectedLemma tag t1 cands word = selectedLemma tag (pre ++ row :: post) cands word) ∧
    (∀ f : ClassRow → CStr,
      select tag t1 cands =
        select tag (t1.map (fun r => ClassRow.mk r.wsjclass r.classcode (f r))) cands ∧
      selectedLemma tag t1 cands word =
        selectedLemma tag (t1.map (fun r => ClassRow.mk r.wsjclass r.classcode (f r)))
          cands word) := by
  refine ⟨fun t2 h => select_congr tag t1 t2 h cands word, ?_, ?_, ?_⟩
  · intro t2 hp
    exact select_congr tag t1 t2 (samePairs_of_mem_iff t1 t2 (fun row => hp.mem_iff)) cands word
  · intro row hrow pre post e
    refine select_congr tag t1 _ (samePairs_of_mem_iff t1 _ ?_) cands word
    intro r
    subst e
    simp only [List.mem_append, List.mem_cons] at hrow ⊢
    constructor
    · rintro (h | h)
      · exact Or.inl h
      · exact Or.inr (Or.inr h)
    · rintro (h | h | h)
      · exact Or.inl h
      · subst h; exact hrow
      · exact Or.inr h
  · intro f
    refine select_congr tag t1 _ ?_ cands word
    intro src code
    constructor
    · rintro ⟨row, hr, hp⟩
      exact ⟨ClassRow.mk row.wsjclass row.classcode (f row),
        List.mem_map.mpr ⟨row, hr, rfl⟩, hp⟩
    · rintro ⟨row, hr, hp⟩
      obtain ⟨r0, hr0, e⟩ := List.mem_map.mp hr
      subst e
      exact ⟨r0, hr0, hp⟩

/-- An instance of C24: with the rows of the table reversed, one of them doubled and the target
labels changed, the candidates see and saw under VBD still select see. -/
theorem select_depends_on_pairs_example :
    selectedLemma "VBD".toList
        [ClassRow.mk "NN".toList "N".toList "x".toList,
         ClassRow.mk "VBD".toList "V".toList "y".toList,
         ClassRow.mk "VBD".toList "V".toList "z".toList]
        seeSawCands "saw".toList = "see".toList ∧
    selectedLemma "VBD".toList
        [ClassRow.mk "VBD".toList "V".toList "VVD".toList,
         ClassRow.mk "NN".toList "N".toList "NN1".toList]
        seeSawCands "saw".toList = "see".toList := by
  decide

theorem filter_dropWhile_not {α : Type} (p q : α → Bool) (l : List α)
    (hqp : ∀ x, q x = true → p x = true) :
    (l.dropWhile (fun x => !p x)).filter q = l.filter q := by
  induction l with
  | nil => rfl
  | cons a as ih =>
    rw [List.dropWhile_cons]
    by_cases hp : p a = true
    · simp [hp]
    · have hq : ¬ (q a = true) := fun h => hp (hqp a h)
      simp only [hp, Bool.not_false, Bool.not_eq_true, if_true, ih]
      simp [hp, List.filter_cons, hq]

theorem filter_takeWhile_of_rest {α : Type} (p q : α → Bool) (r : List α)
    (h : ∀ z ∈ r.dropWhile p, ¬ (q z = true)) :
    (r.takeWhile p).filter q = r.filter q := by
  have e : r.filter q = (r.takeWhile p ++ r.dropWhile p).filter q := by
    rw [List.takeWhile_append_dropWhile]
  rw [e, List.filter_append, List.filter_eq_nil_iff.mpr h, List.append_nil]

theorem dropWhile_head_false {α : Type} (p : α → Bool) (l : List α) (y : α) (t : List α)
    (h : l.dropWhile p = y :: t) : p y = false := by
  have hne : l.dropWhile p ≠ [] := by rw [h]; simp
  have := List.head_dropWhile_not p l hne
  simpa [h] using this

theorem contiguous_rest (lex : List LexEntry) (c : Char) (hc : firstContiguous lex) :
    ∀ z ∈ (lex.dropWhile (fun e => !decide (firstChar e = c))).dropWhile
        (fun e => decide (firstChar e = c)),
      firstChar z ≠ c := by
  intro z hz hzc
  have hsplit1 := List.takeWhile_append_dropWhile (fun e => !decide (firstChar e = c)) lex
  generalize hpre : lex.takeWhile (fun e => !decide (firstChar e = c)) = pre at hsplit1
  generalize hrest : lex.dropWhile (fun e => !decide (firstChar e = c)) = rest at hsplit1 hz
  have hsplit2 := List.takeWhile_append_dropWhile (fun e => decide (firstChar e = c)) rest
  generalize hrun : rest.takeWhile (fun e => decide (firstChar e = c)) = run at hsplit2
  generalize htail : rest.dropWhile (fun e => decide (firstChar e = c)) = tail at hsplit2 hz
  cases tail with
  | nil => simp at hz
  | cons y tail2 =>
    have hy : firstChar y ≠ c := by
      have := dropWhile_head_false _ rest y tail2 htail
      simpa using this
    have hz2 : z ∈ tail2 := by
      rcases List.mem_cons.mp hz with e | e
      · exact absurd (e ▸ hzc) hy
      · exact e
    obtain ⟨a, b, eab⟩ := List.append_of_mem hz2
    cases run with
    | nil =>
      rw [List.nil_append] at hsplit2
      have := dropWhile_head_false _ lex y tail2 (by rw [hrest, ← hsplit2])
      simp at this
      exact hy this
    | cons x run2 =>
      have hx : firstChar x = c := by
        have hmem : x ∈ rest.takeWhile (fun e => decide (firstChar e = c)) := by
          rw [hrun]; simp
        have := List.mem_takeWhile_imp hmem
        simpa using this
      have hlex : lex = pre ++ x :: ((run2 ++ y :: a) ++ z :: b) := by
        rw [← hsplit1, ← hsplit2, eab]
        simp
      have := hc pre x (run2 ++ y :: a) z b hlex (hx.trans hzc.symm) y (by simp)
      exact hy (this.trans hx)

theorem strcmpLe_firstChar (a b : CStr) (h : strcmpLe a b = true) :
    ¬ (charAt b 0 < charAt a 0) := by
  cases a with
  | nil =>
    intro hlt
    have : (charAt b 0).val < (charAt ([] : CStr) 0).val := hlt
    have hn : (charAt ([] : CStr) 0).val = 0 := rfl
    rw [hn] at this
    exact Nat.not_lt_zero _ this
  | cons p ps =>
    cases b with
    | nil => simp [strcmpLe] at h
    | cons q qs =>
      show ¬ (q < p)
      intro hqp
      by_cases hpq : p < q
      · exact lt_asymm hpq hqp
      · simp [strcmpLe, hpq, hqp] at h

theorem sorted_firstContiguous (lex : List LexEntry) (h : sortedLexicon lex) :
    firstContiguous lex := by
  intro pre x mid y post e hxy z hz
  unfold sortedLexicon at h
  rw [e] at h
  have h1 := (List.pairwise_append.mp h).2.1
  have hxz : strcmpLe x.lexwf z.lexwf = true :=
    (List.pairwise_cons.mp h1).1 z (by simp [hz])
  have h2 := (List.pairwise_cons.mp h1).2
  have hzy : strcmpLe z.lexwf y.lexwf = true :=
    (List.pairwise_append.mp h2).2.2 z hz y (by simp)
  have a1 := strcmpLe_firstChar _ _ hxz
  have a2 := strcmpLe_firstChar _ _ hzy
  unfold firstChar at hxy ⊢
  rw [← hxy] at a2
  rcases lt_trichotomy (charAt z.lexwf 0) (charAt x.lexwf 0) with g | g | g
  · exact absurd g a1
  · exact g
  · exact absurd g a2

theorem lexScan_eq_filter_of_contiguous (lex : List LexEntry) (word : CStr)
    (hc : firstContiguous lex) :
    lexScan lex word = lex.filter (fun e => decide (e.lexwf = word)) := by
  have hqp : ∀ x : LexEntry, decide (x.lexwf = word) = true →
      decide (firstChar x = charAt word 0) = true := by
    intro x hx
    simp only [decide_eq_true_eq] at hx ⊢
    unfold firstChar; rw [hx]
  have hskip : skipLoop word lex
      = lex.dropWhile (fun e => !decide (firstChar e = charAt word 0)) := by
    rw [skipLoop_eq]
    congr 1
    funext e
    simp [firstChar]
  have hscan : ∀ es, scanLoop word es =
      (es.takeWhile (fun e => decide (firstChar e = charAt word 0))).filter
        (fun e => decide (e.lexwf = word)) := fun es => scanLoop_eq word es
  unfold lexScan
  rw [hskip, hscan, filter_takeWhile_of_rest, filter_dropWhile_not _ _ lex hqp]
  intro z hz hq
  have := contiguous_rest lex (charAt word 0) hc z hz
  exact this (by simpa using hqp z hq)

/-- C23. Lexicon scan versus exact lookup: for every lexicon in which the entries sharing a
first character are contiguous, and in particular for every lexicon sorted by word form, and for
every word, the scan of the source returns the same entries, in the same order, as filtering the
whole lexicon for the word form equal to the word. -/
theorem lexScan_exact_on_contiguous (lex : List LexEntry) (word : CStr) :
    (firstContiguous lex →
      lexScan lex word = lex.filter (fun e => decide (e.lexwf = word))) ∧
    (sortedLexicon lex → firstContiguous lex ∧
      lexScan lex word = lex.filter (fun e => decide (e.lexwf = word))) :=
  ⟨lexScan_eq_filter_of_contiguous lex word,
    fun h => ⟨sorted_firstContiguous lex h,
      lexScan_eq_filter_of_contiguous lex word (sorted_firstContiguous lex h)⟩⟩

/-- An instance of C23: in the sorted lexicon ant, apple, apple, bee the scan for apple finds
both apple entries, as the filter does. -/
theorem lexScan_sorted_example :
    sortedLexicon [LexEntry.mk "ant".toList "ant".toList "N-S".toList,
      LexEntry.mk "apple".toList "apple".toList "N-S".toList,
      LexEntry.mk "apple".toList "apple".toList "V-i".toList,
      LexEntry.mk "bee".toList "bee".toList "N-S".toList] ∧
    lexScan [LexEntry.mk "ant".toList "ant".toList "N-S".toList,
      LexEntry.mk "apple".toList "apple".toList "N-S".toList,
      LexEntry.mk "apple".toList "apple".toList "V-i".toList,
      LexEntry.mk "bee".toList "bee".toList "N-S".toList] "apple".toList =
    [LexEntry.mk "apple".toList "apple".toList "N-S".toList,
      LexEntry.mk "apple".toList "apple".toList "V-i".toList] := by
  unfold sortedLexicon
  decide

theorem loopBody_record (lex : List LexEntry) (table : List ClassRow) (st : State)
    (memword tag buffer : CStr) (hword : charAt memword 0 ≠ '<')
    (r : State × OutLine) (h : loopBody lex table st memword tag buffer = some r) :
    ∃ l, r.2 = OutLine.record memword tag l := by
  unfold loopBody at h
  rw [if_pos hword] at h
  cases hp : processToken lex table st memword tag buffer with
  | none => rw [hp] at h; simp at h
  | some q =>
    rw [hp] at h
    simp only [Option.map_some', Option.some.injEq] at h
    unfold processToken at hp
    cases hc : changeOf buffer with
    | none => simp [hc] at hp
    | some change =>
      cases hb : lookupBlocks lex st.slots (lookupWord st memword tag) change with
      | none => simp [hc, hb] at hp
      | some b =>
        simp only [hc, hb, Option.some.injEq] at hp
        rw [← h, ← hp]
        exact ⟨_, rfl⟩

/-- C21. Output word field: for every token that is not a marker, whenever the step emits a
record its first field is the word exactly as read and its second the declared tag, whatever
form the case normalisation gave to the word for lookup and classification; and the step does
emit one when the reply carries a payload and the lookup blocks complete. -/
theorem first_field_is_word_as_read (lex : List LexEntry) (table : List ClassRow) (st : State)
    (memword tag : CStr) (hword : charAt memword 0 ≠ '<') :
    (∀ buffer r, loopBody lex table st memword tag buffer = some r →
      ∃ l, r.2 = OutLine.record memword tag l) ∧
    (∀ buffer change cands, changeOf buffer = some change →
      candidatesOf lex st.slots (lookupWord st memword tag) change = some cands →
      ∃ st1, loopBody lex table st memword tag buffer =
        some (st1, OutLine.record memword tag
          (selectedLemma tag table cands (lookupWord st memword tag)))) := by
  refine ⟨fun buffer r h => loopBody_record lex table st memword tag buffer hword r h, ?_⟩
  intro buffer change cands hr hc
  obtain ⟨st1, _, hp⟩ := processToken_cands lex table st memword tag buffer change cands hr hc
  refine ⟨st1, ?_⟩
  unfold loopBody
  rw [if_pos hword, hp]
  rfl

/-- The witness of C21: the word The with declared tag DT at the start of a sentence is looked
up as the and found in the lexicon; the record emitted starts with The. -/
theorem first_field_is_word_as_read_witness :
    charAt "The".toList 0 ≠ '<' ∧
    ((∀ buffer r, loopBody [LexEntry.mk "the".toList "the".toList "D-x".toList]
        [ClassRow.mk "DT".toList "D".toList "AT0".toList] startState "The".toList "DT".toList
        buffer = some r → ∃ l, r.2 = OutLine.record "The".toList "DT".toList l) ∧
      (∀ buffer change cands, changeOf buffer = some change →
        candidatesOf [LexEntry.mk "the".toList "the".toList "D-x".toList] startState.slots
          (lookupWord startState "The".toList "DT".toList) change = some cands →
        ∃ st1, loopBody [LexEntry.mk "the".toList "the".toList "D-x".toList]
          [ClassRow.mk "DT".toList "D".toList "AT0".toList] startState "The".toList "DT".toList
          buffer = some (st1, OutLine.record "The".toList "DT".toList
            (selectedLemma "DT".toList [ClassRow.mk "DT".toList "D".toList "AT0".toList] cands
              (lookupWord startState "The".toList "DT".toList))))) ∧
    lookupWord startState "The".toList "DT".toList = "the".toList ∧
    (loopBody [LexEntry.mk "the".toList "the".toList "D-x".toList]
        [ClassRow.mk "DT".toList "D".toList "AT0".toList] startState "The".toList "DT".toList
        "CATEGORY {X}".toList).map (fun r => r.2) =
      some (OutLine.record "The".toList "DT".toList "the".toList) :=
  ⟨by decide, first_field_is_word_as_read _ _ _ _ _ (by decide), by decide, by decide⟩

/-- C22, the code at failing inputs.  For the word walked with declared tag VBD: on a reply
without opening brace the scan of line 274 finds none before the terminator, on a reply without
closing brace the copy of lines 276-280 finds none, and on a spec whose tag code has no dash the
copy of lines 404-408 finds none; in each case the step has no defined result, also for the
word saw, which is in the lexicon.  On a reply with an empty payload the step completes and
emits the pass-through word. -/
theorem malformed_reply_or_tag :
    (processToken [] vbdTable startState "walked".toList "VBD".toList
        "CATEGORY V-pa+Ded 1.0".toList).isNone = true ∧
    (processToken [] vbdTable startState "walked".toList "VBD".toList
        "CATEGORY \x7bV-pa+Ded 1.0".toList).isNone = true ∧
    (processToken [] vbdTable startState "walked".toList "VBD".toList
        "CATEGORY {V+Ded} 1.0".toList).isNone = true ∧
    (processToken sawLexicon vbdTable startState "saw".toList "VBD".toList
        "CATEGORY V-pa+Ded 1.0".toList).isNone = true ∧
    (processToken [] vbdTable startState "walked".toList "VBD".toList
        "CATEGORY {} 1.0".toList).map (fun r => r.2.lemma_) = some "walked".toList := by
  decide

theorem afterOpen_eq (a r : CStr) (ha : '{' ∉ a) : afterOpen (a ++ '{' :: r) = some r := by
  induction a with
  | nil => simp [afterOpen]
  | cons c cs ih =>
    have hc : c ≠ '{' := fun e => ha (by simp [e])
    have hcs : '{' ∉ cs := fun m => ha (List.mem_cons_of_mem _ m)
    simp [afterOpen, hc, ih hcs]

theorem upToClose_eq (b c : CStr) (hb : '}' ∉ b) : upToClose (b ++ '}' :: c) = some b := by
  induction b with
  | nil => simp [upToClose]
  | cons x xs ih =>
    have hx : x ≠ '}' := fun e => hb (by simp [e])
    have hxs : '}' ∉ xs := fun m => hb (List.mem_cons_of_mem _ m)
    simp [upToClose, hx, ih hxs]

theorem changeOf_eq (a b c : CStr) (ha : '{' ∉ a) (hb : '}' ∉ b) :
    changeOf (a ++ '{' :: (b ++ '}' :: c)) = some b := by
  unfold changeOf
  rw [afterOpen_eq a _ ha]
  exact upToClose_eq b c hb

theorem candidatesOf_defined (lex : List LexEntry) (slots : Nat → Lookup) (word change : CStr)
    (hlex : ∀ e ∈ lexScan lex word, '-' ∈ e.lexpos)
    (hspec : ∀ p ∈ strtokParts change, '-' ∈ (parseSpec p).1) :
    ∃ cands, candidatesOf lex slots word change = some cands := by
  cases hp : isPunct word with
  | true =>
    refine ⟨(List.range 1).map (punctSlots slots word), ?_⟩
    unfold candidatesOf
    rw [lookupBlocks_punct lex slots word change hp]
    rfl
  | false =>
    have hl := lexSlots_eq lex word hlex
    cases hf : lexScan lex word with
    | nil =>
      exact ⟨_, candidatesOf_timbl lex slots word change _ hp hf
        (timblSlots_dashed word slots (strtokParts change) 0 hspec)⟩
    | cons e es =>
      rw [hf] at hl
      refine ⟨(e :: es).map entryLookup, ?_⟩
      unfold candidatesOf
      rw [lookupBlocks_lex lex slots word change _ hp hl (by simp)]
      simp only [Option.map_some', range_map_writeSlots]

/-- The step completes on well-formed input: when the reply holds an opening brace and, after
it, a closing brace, every lexicon entry found for the lookup form has a dash in its tag code
and every spec of the payload has a dash in its tag code, the step for a token emits a record
whose lemma is the lemma of one of the candidates or the lookup form of the word. -/
theorem step_completes_on_wellformed (lex : List LexEntry) (table : List ClassRow) (st : State)
    (memword tag a b c : CStr) (ha : '{' ∉ a) (hb : '}' ∉ b)
    (hlex : ∀ e ∈ lexScan lex (lookupWord st memword tag), '-' ∈ e.lexpos)
    (hspec : ∀ p ∈ strtokParts b, '-' ∈ (parseSpec p).1) :
    ∃ st1 cands lemma_,
      processToken lex table st memword tag (a ++ '{' :: (b ++ '}' :: c)) =
        some (st1, Emitted.mk (instanceFor (lookupWord st memword tag)) memword tag lemma_) ∧
      candidatesOf lex st.slots (lookupWord st memword tag) b = some cands ∧
      (lemma_ = lookupWord st memword tag ∨ ∃ x ∈ cands, lemma_ = x.lookuplemma) := by
  obtain ⟨cands, hc⟩ := candidatesOf_defined lex st.slots (lookupWord st memword tag) b hlex hspec
  obtain ⟨st1, _, hp⟩ := processToken_cands lex table st memword tag _ b cands
    (changeOf_eq a b c ha hb) hc
  exact ⟨st1, cands, _, hp, hc, selectedLemma_mem tag table cands (lookupWord st memword tag)⟩

/-- The step for walked with the reply CATEGORY, payload V-pa+Ded in braces, 1.0. -/
theorem step_completes_on_wellformed_witness :
    ('{' ∉ "CATEGORY ".toList ∧ '}' ∉ "V-pa+Ded".toList ∧
      (∀ e ∈ lexScan sawLexicon (lookupWord startState "walked".toList "VBD".toList),
        '-' ∈ e.lexpos) ∧
      ∀ p ∈ strtokParts "V-pa+Ded".toList, '-' ∈ (parseSpec p).1) ∧
    (∃ st1 cands lemma_,
      processToken sawLexicon vbdTable startState "walked".toList "VBD".toList
          ("CATEGORY ".toList ++ '{' :: ("V-pa+Ded".toList ++ '}' :: " 1.0".toList)) =
        some (st1, Emitted.mk (instanceFor (lookupWord startState "walked".toList "VBD".toList))
          "walked".toList "VBD".toList lemma_) ∧
      candidatesOf sawLexicon startState.slots (lookupWord startState "walked".toList "VBD".toList)
        "V-pa+Ded".toList = some cands ∧
      (lemma_ = lookupWord startState "walked".toList "VBD".toList ∨
        ∃ x ∈ cands, lemma_ = x.lookuplemma)) ∧
    (processToken sawLexicon vbdTable startState "walked".toList "VBD".toList
        ("CATEGORY ".toList ++ '{' :: ("V-pa+Ded".toList ++ '}' :: " 1.0".toList))).map
      (fun r => r.2.lemma_) = some "walk".toList :=
  ⟨by decide,
    step_completes_on_wellformed sawLexicon vbdTable startState "walked".toList "VBD".toList
      "CATEGORY ".toList "V-pa+Ded".toList " 1.0".toList
      (by decide) (by decide) (by decide) (by decide),
    by decide⟩

/-- C25, the code at a failing input.  In the stream full stop, he, marker, he, The the full
stop opens the first sentence and sets the flag; no token is normalised before the marker, so
the flag is still set in the second sentence, whose position 0 holds he, and The at position 1
is normalised: it is emitted with the lemma the.  Without the first sentence The at position 1
after he is not normalised. -/
theorem punct_flag_outlives_sentence :
    (mainLoop [] vbdTable startState
        [(".".toList, ".".toList, "CATEGORY {}".toList),
         ("he".toList, "PRP".toList, "CATEGORY {}".toList),
         ("<s>".toList, [], []),
         ("he".toList, "PRP".toList, "CATEGORY {}".toList),
         ("The".toList, "DT".toList, "CATEGORY {}".toList)]).map (fun q => q.2) =
      some [OutLine.record ".".toList ".".toList ".".toList,
        OutLine.record "he".toList "PRP".toList "he".toList,
        OutLine.markerLine "<s>".toList,
        OutLine.record "he".toList "PRP".toList "he".toList,
        OutLine.record "The".toList "DT".toList "the".toList] ∧
    isPunct "he".toList = false ∧
    (mainLoop [] vbdTable startState
        [("<s>".toList, [], []),
         ("he".toList, "PRP".toList, "CATEGORY {}".toList),
         ("The".toList, "DT".toList, "CATEGORY {}".toList)]).map (fun q => q.2) =
      some [OutLine.markerLine "<s>".toList,
        OutLine.record "he".toList "PRP".toList "he".toList,
        OutLine.record "The".toList "DT".toList "The".toList] := by
  decide

/-- Where the case normalisation can apply and how the flag gets set: a token at a sentence
position other than 0 is normalised only if it stands at position 1 and the flag `let` is set;
a step leaves the flag set only if it was set before or the token is a punctuation literal at
position 0; a marker leaves the flag as it is. -/
theorem normalise_needs_position_and_flag (lex : List LexEntry) (table : List ClassRow)
    (st : State) (memword tag buffer : CStr) :
    (normCond st.sentence (letAfterPunct st.sentence st.let_ memword) memword tag = true →
      st.sentence ≠ 0 → st.sentence = 1 ∧ st.let_ = true) ∧
    (lookupWord st memword tag ≠ memword →
      st.sentence = 0 ∨ (st.sentence = 1 ∧ st.let_ = true)) ∧
    (∀ r, processToken lex table st memword tag buffer = some r → r.1.let_ = true →
      st.let_ = true ∨ (st.sentence = 0 ∧ isPunct memword = true)) ∧
    (charAt memword 0 = '<' →
      ∀ r, loopBody lex table st memword tag buffer = some r → r.1.let_ = st.let_) := by
  have h1 : normCond st.sentence (letAfterPunct st.sentence st.let_ memword) memword tag = true →
      st.sentence ≠ 0 → st.sentence = 1 ∧ st.let_ = true := by
    intro hn h0
    unfold normCond letAfterPunct at hn
    simp only [Bool.and_eq_true, Bool.or_eq_true, beq_iff_eq] at hn
    rcases hn.1.1.1 with h | ⟨h, hl⟩
    · exact absurd h h0
    · refine ⟨h, ?_⟩
      simpa [h0] using hl
  refine ⟨h1, ?_, ?_, ?_⟩
  · intro hne
    by_cases hn : normCond st.sentence (letAfterPunct st.sentence st.let_ memword) memword tag
        = true
    · by_cases h0 : st.sentence = 0
      · exact Or.inl h0
      · exact Or.inr (h1 hn h0)
    · exfalso
      apply hne
      unfold lookupWord
      rw [if_neg hn]
  · intro r hr hl
    unfold processToken at hr
    cases hc : changeOf buffer with
    | none => simp [hc] at hr
    | some change =>
      cases hb : lookupBlocks lex st.slots (lookupWord st memword tag) change with
      | none => simp [hc, hb] at hr
      | some b =>
        simp only [hc, hb, Option.some.injEq] at hr
        rw [← hr] at hl
        simp only at hl
        by_cases hn : normCond st.sentence (letAfterPunct st.sentence st.let_ memword) memword
            tag = true
        · rw [if_pos hn] at hl
          exact absurd hl (by simp)
        · rw [if_neg hn] at hl
          unfold letAfterPunct at hl
          by_cases hp : (st.sentence == 0 && isPunct memword) = true
          · simp only [Bool.and_eq_true, beq_iff_eq] at hp
            exact Or.inr hp
          · rw [if_neg hp] at hl
            exact Or.inl hl
  · intro hm r hr
    unfold loopBody at hr
    rw [if_neg (by simpa using hm)] at hr
    simp only [Option.some.injEq] at hr
    rw [← hr]

end MBLEM
